import Mathlib

/-!
Shallow embedding of the dependency/lineage graph engine of the repository
(`src/services/dependency_graph.py`, `src/generators/generate_graph.py`,
`src/services/graph_builder.py`) and proofs of the specification claims.

Conventions of the embedding:
* Python strings are `String`; Python `dict[str, X]` becomes an association
  list `List (String × X)` queried with `List.lookup` (Python dict keys are
  unique; `lookup` takes the first binding, which agrees on every state a
  dict can have).
* Python `set[str]` values become `List String` used with set semantics
  (construction sites below only ever insert unseen elements, so the lists
  stay duplicate-free, mirroring sets; this is proved where it matters).
* Python `while` loops become fuel-indexed structural recursions; at every
  call site the fuel passed is large enough that the loop always exits
  through its real termination condition before the fuel is consumed (the
  justification is given at each call site, and for the Kahn loop it is
  proved as part of the main theorem).
* Code that can raise (`entity['name']` on a dict without the key) returns
  `Option`, `none` standing for the raised `KeyError`.
* File I/O and timestamps are side effects outside the shallow embedding;
  the graph document is returned instead of written to disk.
-/

/-- Node in the dependency graph (`EntityNode` dataclass,
`src/services/dependency_graph.py` lines 16-22). -/
structure EntityNode where
  id : String
  name : String
  dependencies : List String
  dependents : List String
deriving DecidableEq, Repr

/-- The `DependencyGraph` service state: `self.nodes : dict[str, EntityNode]`
(`src/services/dependency_graph.py` line 30).  The claims quantify over every
index state, so the construction from `entities.json` is not needed here. -/
structure DependencyGraph where
  nodes : List (String × EntityNode)
deriving DecidableEq, Repr

/-- Dict lookup `self.nodes[entity_id]` / membership test
`entity_id in self.nodes`. -/
def lookupNode (dg : DependencyGraph) (entityId : String) : Option EntityNode :=
  dg.nodes.lookup entityId

/-- The `dependencies` adjacency used by the worklist of `get_dependencies`
(lines 85-88): for a known node its `dependencies` set, for an unknown id
nothing (the Python loop body is guarded by `if current in self.nodes`). -/
def adjDeps (dg : DependencyGraph) (k : String) : List String :=
  match lookupNode dg k with
  | some node => node.dependencies
  | none => []

/-- The `dependents` adjacency used by the worklist of `get_dependents`
(lines 107-110). -/
def adjDepts (dg : DependencyGraph) (k : String) : List String :=
  match lookupNode dg k with
  | some node => node.dependents
  | none => []

/-- Fuel bound for the worklist loops of `get_dependencies` /
`get_dependents`.  Each loop iteration pops one worklist entry; entries are
the single start id plus pushes, pushes happen only when a node is expanded
for the first time, and a node is expanded at most once, so the number of
iterations is at most `1 + Σ (|dependencies| + |dependents|)` over all node
entries.  `closureBound` exceeds that. -/
def closureBound (dg : DependencyGraph) : Nat :=
  2 + (dg.nodes.map (fun p => p.2.dependencies.length + p.2.dependents.length)).sum

/-- The worklist loop shared by `get_dependencies` (lines 76-89) and
`get_dependents` (lines 98-110): `while to_visit: current = to_visit.pop();
if current in visited: continue; visited.add(current); for dep in
adj(current): if dep not in visited: to_visit.append(dep)`.
Python pops and pushes at the END of `to_visit`; here the worklist is kept
reversed so the pop and the pushes act on the head.  The final `visited` set
does not depend on the pop order. -/
def closureLoop (adj : String → List String) : Nat → List String → List String → List String
  | 0, visited, _ => visited
  | _ + 1, visited, [] => visited
  | fuel + 1, visited, current :: rest =>
    if current ∈ visited then
      closureLoop adj fuel visited rest
    else
      closureLoop adj fuel (current :: visited)
        (((adj current).filter (fun d => decide (¬ d ∈ current :: visited))) ++ rest)

/-- `DependencyGraph.get_dependencies` (lines 71-91): unknown id returns the
empty set; otherwise run the worklist from the id and remove the id itself
(`visited.remove(entity_id)`). -/
def get_dependencies (dg : DependencyGraph) (entityId : String) : List String :=
  match lookupNode dg entityId with
  | none => []
  | some _ => (closureLoop (adjDeps dg) (closureBound dg) [] [entityId]).erase entityId

/-- `DependencyGraph.get_dependents` (lines 93-113), symmetric over the
`dependents` adjacency. -/
def get_dependents (dg : DependencyGraph) (entityId : String) : List String :=
  match lookupNode dg entityId with
  | none => []
  | some _ => (closureLoop (adjDepts dg) (closureBound dg) [] [entityId]).erase entityId

/-- `DependencyGraph.get_impact` (lines 115-120): `impact = {entity_id};
impact.update(self.get_dependents(entity_id))`.  As a set of strings this is
exactly the cons below (`entityId ∉ get_dependents dg entityId` is proved
later, so the list length also matches the Python set size). -/
def get_impact (dg : DependencyGraph) (entityId : String) : List String :=
  entityId :: get_dependents dg entityId

/-- `DependencyGraph.can_parallelize` (lines 122-132):
`len(impact_a & impact_b) == 0`. -/
def can_parallelize (dg : DependencyGraph) (changeA changeB : String) : Bool :=
  ((get_impact dg changeA).inter (get_impact dg changeB)).length == 0

/-- `DependencyGraph.analyze_change_risk` (lines 223-235). -/
def analyze_change_risk (dg : DependencyGraph) (entityId : String) : String :=
  match lookupNode dg entityId with
  | none => "unknown"
  | some _ =>
    let impactSize := (get_impact dg entityId).length
    if impactSize = 1 then "low"
    else if impactSize ≤ 3 then "medium"
    else "high"

/-- Pointwise update of the `in_degree` dict modelled as a total function
(Python only ever reads keys in `entities`, where the dict is defined; all
other points keep the value `0` they were never given). -/
def updF (f : String → Int) (k : String) (v : Int) : String → Int :=
  fun x => if x = k then v else f x

/-- Pointwise update of the `graph` dict of adjacency lists. -/
def updAdj (g : String → List String) (k : String) (v : List String) : String → List String :=
  fun x => if x = k then v else g x

/-- First phase of `get_change_order` (lines 162-171), building the
`in_degree` map and the `graph` adjacency over the induced subgraph on
`entities`: `for entity in entities: if entity in self.nodes: for dep in
self.nodes[entity].dependencies: if dep in entities:
graph[dep].append(entity); in_degree[entity] += 1`.  The two loop bodies
are split out as the named step functions below.  This is the body of the
inner `for dep ...` loop (lines 169-171). -/
def buildDepStep (entities : List String) (entity : String)
    (st2 : (String → Int) × (String → List String)) (dep : String) :
    (String → Int) × (String → List String) :=
  if dep ∈ entities then
    (updF st2.1 entity (st2.1 entity + 1), updAdj st2.2 dep (st2.2 dep ++ [entity]))
  else st2

/-- Body of the outer `for entity in entities` loop: skip entities unknown
to the index, else run the dependency loop. -/
def buildEntityStep (dg : DependencyGraph) (entities : List String)
    (st : (String → Int) × (String → List String)) (entity : String) :
    (String → Int) × (String → List String) :=
  match lookupNode dg entity with
  | none => st
  | some node => node.dependencies.foldl (buildDepStep entities entity) st

/-- The two dicts after both build loops ran over the whole input list. -/
def buildDegAdj (dg : DependencyGraph) (entities : List String) :
    (String → Int) × (String → List String) :=
  entities.foldl (buildEntityStep dg entities) (fun _ => 0, fun _ => [])

/-- Body of the inner `for dependent in graph.get(current, [])` loop of the
Kahn phase (lines 181-184): decrement the dependent's in-degree and enqueue
it when the running value hits exactly `0`. -/
def processDependent (p : (String → Int) × List String) (dependent : String) :
    (String → Int) × List String :=
  let d := p.1 dependent - 1
  (updF p.1 dependent d, if d = 0 then p.2 ++ [dependent] else p.2)

/-- The Kahn `while queue` loop (lines 177-184), FIFO (`queue.pop(0)`).
Fuel: the loop runs once per queue entry; every entry is an element of
`entities` and (as proved in the main theorem) no element is enqueued
twice, so `entities.length + 1` fuel always outlasts the loop. -/
def kahnLoop (adj : String → List String) :
    Nat → (String → Int) → List String → List String → List String
  | 0, _, _, result => result
  | _ + 1, _, [], result => result
  | fuel + 1, inDeg, current :: rest, result =>
    let p := (adj current).foldl processDependent (inDeg, rest)
    kahnLoop adj fuel p.1 p.2 (result ++ [current])

/-- `DependencyGraph.get_change_order` (lines 156-191): Kahn's algorithm on
the induced subgraph, falling back to the input when the sort is short
(cycle check, lines 187-189). -/
def get_change_order (dg : DependencyGraph) (entities : List String) : List String :=
  let st := buildDegAdj dg entities
  let queue := entities.filter (fun e => st.1 e == 0)
  let result := kahnLoop st.2 (entities.length + 1) st.1 queue []
  if result.length = entities.length then result else entities

/-- An edge of the dependency subgraph induced on `entities`: `t` is an
entity of the input set whose node declares `s` (also in the input set)
among its `dependencies`; exactly the pairs counted by lines 166-171.  The
edge is directed `s → t`: `s` must be changed before `t`. -/
def DepEdge (dg : DependencyGraph) (entities : List String) (s t : String) : Prop :=
  t ∈ entities ∧ s ∈ entities ∧ s ∈ adjDeps dg t

instance (dg : DependencyGraph) (entities : List String) (s t : String) :
    Decidable (DepEdge dg entities s t) := by
  unfold DepEdge; infer_instance

/-- The induced dependency subgraph on `entities` has a cycle. -/
def HasCycle (dg : DependencyGraph) (entities : List String) : Prop :=
  ∃ x, Relation.TransGen (DepEdge dg entities) x x

/-- Every element of `out` is preceded (strictly, in list order) by all of
its in-set dependencies. -/
def DepsPrecede (dg : DependencyGraph) (entities : List String) (out : List String) : Prop :=
  ∀ i : Nat, ∀ hi : i < out.length, ∀ s : String,
    DepEdge dg entities s (out.get ⟨i, hi⟩) → s ∈ out.take i

/-- In-set dependencies of `x`, counted with multiplicity, not yet popped
into `popped` — the value the Kahn loop keeps in `in_degree[x]`. -/
def remDeg (dg : DependencyGraph) (entities popped : List String) (x : String) : Nat :=
  ((adjDeps dg x).filter (fun d => decide (d ∈ entities) && decide (¬ d ∈ popped))).length

/-- A metadata value of a graph node (`metadata` dicts in
`src/generators/generate_graph.py` hold strings and one int count). -/
inductive MetaVal where
  | s (v : String)
  | n (v : Nat)
deriving DecidableEq, Repr

/-- Graph node produced by the compiler and read back by the query service
(`entity_to_node` and friends, `src/generators/generate_graph.py`). -/
structure GNode where
  id : String
  ntype : String
  label : String
  metadata : List (String × MetaVal)
  status_source : Option String
deriving DecidableEq, Repr

/-- Graph edge (`build_edges`, `src/generators/generate_graph.py`). -/
structure GEdge where
  source : String
  target : String
  relation : String
  semantics : String
deriving DecidableEq, Repr

/-- The graph document (`generate_graph` lines 150-155; `generated_at` is a
wall-clock side effect and is elided). -/
structure GraphDoc where
  version : String
  nodes : List GNode
  edges : List GEdge
deriving DecidableEq, Repr

/-- An entity field record, as read by `build_edges` lines 89-99:
`field.get('type')`, `field.get('references')`, and `field['name']`
(the last one raises when absent, hence `Option`). -/
structure FieldSpec where
  fname : Option String
  ftype : Option String
  references : Option String
deriving DecidableEq, Repr

/-- An entity spec record.  `entity['name']` (lines 14 and 86) raises when
the key is missing, hence `Option`. -/
structure EntitySpec where
  name : Option String
  owner : Option String
  criticality : Option String
  fields : List FieldSpec
deriving DecidableEq, Repr

/-- An algorithm spec record (all reads use `.get` with defaults). -/
structure AlgorithmSpec where
  aid : Option String
  name : Option String
  owner : Option String
  criticality : Option String
deriving DecidableEq, Repr

/-- A workflow spec record (all reads use `.get` with defaults). -/
structure WorkflowSpec where
  wid : Option String
  name : Option String
  owner : Option String
  criticality : Option String
  sla : Option String
  produces : List String
  consumes : List String
deriving DecidableEq, Repr

/-- The `specs` input of the compiler: `specs.get('entities',
\x7b\x7d).get('entities', [])` etc., flattened to three record lists. -/
structure Specs where
  entities : List EntitySpec
  algorithms : List AlgorithmSpec
  workflows : List WorkflowSpec
deriving DecidableEq, Repr

/-- Python `str.lower()`: character-wise lowering.  (`String.toLower` of
the library is extensionally the same function but is not reducible by the
kernel, so the embedding uses this explicit form.) -/
def strLower (s : String) : String :=
  String.mk (s.data.map Char.toLower)

/-- `entity_to_node` (`generate_graph.py` lines 12-27).  `entity['name']`
raises `KeyError` when missing: modelled as `none`. -/
def entity_to_node (entity : EntitySpec) : Option GNode := do
  let nm ← entity.name
  pure
    { id := "asset.entity." ++ strLower nm
      ntype := "ASSET"
      label := nm
      metadata :=
        [("owner", MetaVal.s (entity.owner.getD "System")),
         ("business_criticality", MetaVal.s (entity.criticality.getD "MEDIUM")),
         ("fields_count", MetaVal.n entity.fields.length)]
      status_source := some ("hook.entity." ++ strLower nm ++ "_status") }

/-- `algorithm_to_node` (lines 30-43); never raises. -/
def algorithm_to_node (algorithm : AlgorithmSpec) : GNode :=
  let algoId := algorithm.aid.getD (algorithm.name.getD "unknown")
  let nm := algorithm.name.getD algoId
  { id := "algo.compute." ++ algoId
    ntype := "ALGORITHM"
    label := nm
    metadata :=
      [("owner", MetaVal.s (algorithm.owner.getD "System")),
       ("business_criticality", MetaVal.s (algorithm.criticality.getD "MEDIUM"))]
    status_source := none }

/-- `workflow_to_node` (lines 46-60); never raises. -/
def workflow_to_node (workflow : WorkflowSpec) : GNode :=
  let wfId := workflow.wid.getD (workflow.name.getD "unknown")
  let nm := workflow.name.getD wfId
  { id := "wf.process." ++ wfId
    ntype := "WORKFLOW"
    label := nm
    metadata :=
      [("owner", MetaVal.s (workflow.owner.getD "System")),
       ("business_criticality", MetaVal.s (workflow.criticality.getD "HIGH")),
       ("sla", MetaVal.s (workflow.sla.getD "None"))]
    status_source := none }

/-- The structural-reference edges contributed by one entity (`build_edges`
lines 85-99).  The guard mirrors Python truthiness:
`field.get('type') == 'uuid' and field.get('references')` (an empty
`references` string is falsy); `field['name']` is only read once the
candidate edge passed the node-existence check, and raises (`none`) when
absent. -/
def edgesForEntity (nodeIds : List String) (acc : List GEdge) (entity : EntitySpec) :
    Option (List GEdge) := do
  let nm ← entity.name
  let entityId := "asset.entity." ++ strLower nm
  entity.fields.foldlM
    (fun acc2 field =>
      if field.ftype = some "uuid" then
        match field.references with
        | some r =>
          if r = "" then pure acc2
          else
            let refEntity := strLower r
            let refId := "asset.entity." ++ refEntity
            if refId ∈ nodeIds then do
              let fn ← field.fname
              pure (acc2 ++
                [{ source := entityId, target := refId, relation := "DEPENDS_ON",
                   semantics := fn ++ " references " ++ refEntity }])
            else pure acc2
        | none => pure acc2
      else pure acc2)
    acc

/-- The workflow data-flow edges contributed by one workflow (`build_edges`
lines 101-125): `produces` then `consumes`, each guarded by the existence of
the target entity node. -/
def edgesForWorkflow (nodeIds : List String) (acc : List GEdge) (workflow : WorkflowSpec) :
    List GEdge :=
  let wfId := "wf.process." ++ (workflow.wid.getD (workflow.name.getD "unknown"))
  let acc2 := workflow.produces.foldl
    (fun a p =>
      let entityId := "asset.entity." ++ strLower p
      if entityId ∈ nodeIds then
        a ++ [{ source := wfId, target := entityId, relation := "PRODUCES",
                semantics := "Workflow produces " ++ p }]
      else a)
    acc
  workflow.consumes.foldl
    (fun a c =>
      let entityId := "asset.entity." ++ strLower c
      if entityId ∈ nodeIds then
        a ++ [{ source := wfId, target := entityId, relation := "CONSUMES",
                semantics := "Workflow consumes " ++ c }]
      else a)
    acc2

/-- `build_edges` (`generate_graph.py` lines 79-127). -/
def build_edges (specs : Specs) (nodes : List GNode) : Option (List GEdge) := do
  let nodeIds := nodes.map (fun n => n.id)
  let entityEdges ← specs.entities.foldlM (edgesForEntity nodeIds) []
  pure (specs.workflows.foldl (edgesForWorkflow nodeIds) entityEdges)

/-- The pure part of `generate_graph` (`generate_graph.py` lines 130-155):
entity nodes, then algorithm nodes, then workflow nodes, then edges; a
`KeyError` from any record aborts the whole compilation (there is no
per-record recovery), modelled by `Option` propagation. -/
def generate_graph (specs : Specs) : Option GraphDoc := do
  let entityNodes ← specs.entities.mapM entity_to_node
  let nodes := entityNodes ++ specs.algorithms.map algorithm_to_node
      ++ specs.workflows.map workflow_to_node
  let edges ← build_edges specs nodes
  pure { version := "2.0", nodes := nodes, edges := edges }

/-- Fuel bound for `get_lineage`.  The recursion depth grows only when an
unvisited node is expanded; every expanded node except the start is an edge
endpoint, so the nesting never exceeds `2 * edges + 2`. -/
def lineageBound (edges : List GEdge) : Nat :=
  2 * edges.length + 2

/-- The recursive `traverse` closure of `GraphBuilder.get_lineage`
(`src/services/graph_builder.py` lines 65-77), threading the `visited` set
and the `result` list: on a first visit of `current`, scan all edges in
order; on a matching edge append the far end to `result` and recurse into
it (whether or not it was already visited — the visited check happens at
the head of the recursive call, exactly as in the source). -/
def traverseStep (edges : List GEdge) (direction : String) :
    Nat → List String × List String → String → List String × List String
  | 0, st, _ => st
  | fuel + 1, st, current =>
    if current ∈ st.1 then st
    else
      edges.foldl
        (fun st2 e =>
          if direction == "upstream" && e.target == current then
            traverseStep edges direction fuel (st2.1, st2.2 ++ [e.source]) e.source
          else if direction == "downstream" && e.source == current then
            traverseStep edges direction fuel (st2.1, st2.2 ++ [e.target]) e.target
          else st2)
        (current :: st.1, st.2)

/-- `GraphBuilder.get_lineage` (`graph_builder.py` lines 59-79) over a
loaded graph document. -/
def get_lineage (g : GraphDoc) (nodeId : String) (direction : String) : List String :=
  (traverseStep g.edges direction (lineageBound g.edges) ([], []) nodeId).2

/-- Example index: the spec's planning scenario — entity `order` depends on
entity `customer` (spec §8). -/
def dgScenario : DependencyGraph :=
  { nodes :=
      [("order", { id := "order", name := "Order", dependencies := ["customer"], dependents := [] }),
       ("customer", { id := "customer", name := "Customer", dependencies := [], dependents := ["order"] })] }

/-- Example index for the `get_change_order` counterexample: `b` depends on
`a`; the induced subgraph on any subset is acyclic. -/
def dgAcyclicSmall : DependencyGraph :=
  { nodes :=
      [("a", { id := "a", name := "A", dependencies := [], dependents := ["b"] }),
       ("b", { id := "b", name := "B", dependencies := ["a"], dependents := [] })] }

/-- Example index with the spec's three-entity dependency cycle
`A → B → C → A` (spec §8). -/
def dgCycle3 : DependencyGraph :=
  { nodes :=
      [("A", { id := "A", name := "A", dependencies := ["B"], dependents := ["C"] }),
       ("B", { id := "B", name := "B", dependencies := ["C"], dependents := ["A"] }),
       ("C", { id := "C", name := "C", dependencies := ["A"], dependents := ["B"] })] }

/-- Example index with a single isolated node, for the risk-tier claims. -/
def dgSingle : DependencyGraph :=
  { nodes := [("a", { id := "a", name := "A", dependencies := [], dependents := [] })] }

/-- Shorthand for a persisted graph edge (relation and semantics do not
matter to `get_lineage`). -/
def mkEdge (s t : String) : GEdge :=
  { source := s, target := t, relation := "DEPENDS_ON", semantics := "" }

/-- Persisted graph of the spec's lineage scenario: edges `Y→X` and `Z→Y`. -/
def gLine : GraphDoc :=
  { version := "2.0", nodes := [], edges := [mkEdge "Y" "X", mkEdge "Z" "Y"] }

/-- Persisted graph with two distinct edges into the same reached node:
`Y→X`, `Z→X`, `Z→Y`. -/
def gDiamond : GraphDoc :=
  { version := "2.0", nodes := [], edges := [mkEdge "Y" "X", mkEdge "Z" "X", mkEdge "Z" "Y"] }

/-- Persisted graph with a two-cycle through the start node: `Y→X`, `X→Y`. -/
def gCycle2 : GraphDoc :=
  { version := "2.0", nodes := [], edges := [mkEdge "Y" "X", mkEdge "X" "Y"] }

/-- Well-formed specs input: `Customer`, and `Order` with a uuid field
referencing `Customer`; one workflow producing `Order`. -/
def specsGood : Specs :=
  { entities :=
      [{ name := some "Customer", owner := none, criticality := none, fields := [] },
       { name := some "Order", owner := none, criticality := none,
         fields :=
           [{ fname := some "customer_id", ftype := some "uuid", references := some "Customer" },
            { fname := some "ghost_id", ftype := some "uuid", references := some "Ghost" }] }]
    algorithms := []
    workflows :=
      [{ wid := some "fulfmt", name := some "Fulfillment", owner := none, criticality := none,
         sla := none, produces := ["Order"], consumes := ["Customer", "Missing"] }] }

/-- The graph document the compiler produces from `specsGood` (extracted
from the `Option` so the witness below can name it). -/
def gGood : GraphDoc :=
  (generate_graph specsGood).getD { version := "", nodes := [], edges := [] }

/-- Specs input with one malformed entity record (missing `name`) followed
by a perfectly valid one. -/
def specsBad : Specs :=
  { entities :=
      [{ name := none, owner := none, criticality := none, fields := [] },
       { name := some "Customer", owner := none, criticality := none, fields := [] }]
    algorithms := []
    workflows := [] }

/-- The edge endpoint that `get_lineage` matches against the current node:
the `target` for `upstream` traversal, else the `source`. -/
def lineKey (direction : String) (e : GEdge) : String :=
  if direction == "upstream" then e.target else e.source

/-- The edge endpoint that `get_lineage` collects: the `source` for
`upstream` traversal, else the `target`. -/
def lineVal (direction : String) (e : GEdge) : String :=
  if direction == "upstream" then e.source else e.target

/-- Number of edges whose matching endpoint has not been visited yet — the
potential that bounds the growth of the `result` list of `get_lineage`. -/
def lineOpen (direction : String) (edges : List GEdge) (visited : List String) : Nat :=
  (edges.filter (fun e => decide (¬ lineKey direction e ∈ visited))).length

/-- Invariant of the Kahn loop of `get_change_order`, relating the
`in_degree` map, the FIFO `queue` and the `result` accumulator:
every id occurs at most once across `result` and `queue`; both live in
`entities`; `in_degree` holds exactly the number of in-set dependencies not
yet popped (and `0` off `entities`); every id that ever reached the queue
has all its in-set dependencies already in `result`; `result` is
topologically sorted; and an id of `entities` still outside both lists has
at least one unpopped in-set dependency. -/
def KahnInv (dg : DependencyGraph) (entities : List String) (inDeg : String → Int)
    (queue result : List String) : Prop :=
  (result ++ queue).Nodup ∧
  (∀ x ∈ result, x ∈ entities) ∧
  (∀ x ∈ queue, x ∈ entities) ∧
  (∀ x, x ∈ entities → inDeg x = (remDeg dg entities result x : Int)) ∧
  (∀ x, x ∉ entities → inDeg x = 0) ∧
  (∀ x ∈ result ++ queue, ∀ s, DepEdge dg entities s x → s ∈ result) ∧
  DepsPrecede dg entities result ∧
  (∀ x ∈ entities, x ∉ result → x ∉ queue → 1 ≤ remDeg dg entities result x)

/-- The worklist loop only adds an element to `visited` after checking it is
not there yet, so `visited` stays duplicate-free (the Python `set`). -/
theorem closureLoop_nodup (adj : String → List String) :
    ∀ (fuel : Nat) (visited toVisit : List String), visited.Nodup →
      (closureLoop adj fuel visited toVisit).Nodup := by
  intro fuel
  induction fuel with
  | zero => intro visited toVisit h; simpa [closureLoop] using h
  | succ n ih =>
    intro visited toVisit h
    cases toVisit with
    | nil => simpa [closureLoop] using h
    | cons current rest =>
      by_cases hc : current ∈ visited
      · simpa [closureLoop, hc] using ih visited rest h
      · simpa [closureLoop, hc] using
          ih (current :: visited) _ (List.nodup_cons.mpr ⟨hc, h⟩)

/-- Helper: the result of `get_dependencies` is duplicate-free. -/
theorem get_dependencies_nodup (dg : DependencyGraph) (entityId : String) :
    (get_dependencies dg entityId).Nodup := by
  cases h : lookupNode dg entityId with
  | none => simp [get_dependencies, h]
  | some node =>
    simp only [get_dependencies, h]
    exact (closureLoop_nodup _ _ _ _ List.nodup_nil).erase _

/-- Helper: the result of `get_dependents` is duplicate-free. -/
theorem get_dependents_nodup (dg : DependencyGraph) (entityId : String) :
    (get_dependents dg entityId).Nodup := by
  cases h : lookupNode dg entityId with
  | none => simp [get_dependents, h]
  | some node =>
    simp only [get_dependents, h]
    exact (closureLoop_nodup _ _ _ _ List.nodup_nil).erase _

/-- Helper: the start id never appears in `get_dependencies`. -/
theorem self_not_mem_get_dependencies (dg : DependencyGraph) (entityId : String) :
    entityId ∉ get_dependencies dg entityId := by
  cases h : lookupNode dg entityId with
  | none => simp [get_dependencies, h]
  | some node =>
    simp only [get_dependencies, h]
    exact (closureLoop_nodup _ _ _ _ List.nodup_nil).not_mem_erase

/-- Helper: the start id never appears in `get_dependents`. -/
theorem self_not_mem_get_dependents (dg : DependencyGraph) (entityId : String) :
    entityId ∉ get_dependents dg entityId := by
  cases h : lookupNode dg entityId with
  | none => simp [get_dependents, h]
  | some node =>
    simp only [get_dependents, h]
    exact (closureLoop_nodup _ _ _ _ List.nodup_nil).not_mem_erase

/-- Helper: unknown ids yield empty closures. -/
theorem get_dependencies_unknown (dg : DependencyGraph) (entityId : String)
    (h : lookupNode dg entityId = none) : get_dependencies dg entityId = [] := by
  simp [get_dependencies, h]

/-- Helper: unknown ids yield empty dependent closures. -/
theorem get_dependents_unknown (dg : DependencyGraph) (entityId : String)
    (h : lookupNode dg entityId = none) : get_dependents dg entityId = [] := by
  simp [get_dependents, h]

/-- C2: for every index state and every id — even one on a dependency cycle
that routes back to itself — the id is in neither `get_dependencies(id)` nor
`get_dependents(id)`; both closures are duplicate-free sets (each node is
expanded at most once by the visited-set worklist, which also makes both
functions total, i.e. terminating, on cyclic graphs by construction); and an
id unknown to the index yields the empty set from both. -/
theorem closure_excludes_self_and_unknown_empty (dg : DependencyGraph) (entityId : String) :
    entityId ∉ get_dependencies dg entityId ∧
    entityId ∉ get_dependents dg entityId ∧
    (get_dependencies dg entityId).Nodup ∧
    (get_dependents dg entityId).Nodup ∧
    (lookupNode dg entityId = none →
      get_dependencies dg entityId = [] ∧ get_dependents dg entityId = []) :=
  ⟨self_not_mem_get_dependencies dg entityId, self_not_mem_get_dependents dg entityId,
   get_dependencies_nodup dg entityId, get_dependents_nodup dg entityId,
   fun h => ⟨get_dependencies_unknown dg entityId h, get_dependents_unknown dg entityId h⟩⟩

/-- Witness for C2 at a concrete cyclic index (`A → B → C → A`) and at an id
unknown to it. -/
theorem closure_excludes_self_and_unknown_empty_witness :
    ("A" ∉ get_dependencies dgCycle3 "A" ∧
      "A" ∉ get_dependents dgCycle3 "A" ∧
      (get_dependencies dgCycle3 "A").Nodup ∧
      (get_dependents dgCycle3 "A").Nodup ∧
      (lookupNode dgCycle3 "A" = none →
        get_dependencies dgCycle3 "A" = [] ∧ get_dependents dgCycle3 "A" = [])) ∧
    ("ghost" ∉ get_dependencies dgCycle3 "ghost" ∧
      "ghost" ∉ get_dependents dgCycle3 "ghost" ∧
      (get_dependencies dgCycle3 "ghost").Nodup ∧
      (get_dependents dgCycle3 "ghost").Nodup ∧
      (lookupNode dgCycle3 "ghost" = none →
        get_dependencies dgCycle3 "ghost" = [] ∧ get_dependents dgCycle3 "ghost" = [])) :=
  ⟨closure_excludes_self_and_unknown_empty dgCycle3 "A",
   closure_excludes_self_and_unknown_empty dgCycle3 "ghost"⟩

/-- C4: for every id, known or not, `get_impact(id)` contains `id` itself
and equals, as a set, `{id} ∪ get_dependents(id)`. -/
theorem get_impact_contains_self_and_is_union (dg : DependencyGraph) (entityId : String) :
    entityId ∈ get_impact dg entityId ∧
    ∀ x, x ∈ get_impact dg entityId ↔ x = entityId ∨ x ∈ get_dependents dg entityId := by
  constructor
  · simp [get_impact]
  · intro x; simp [get_impact]

/-- Helper: `can_parallelize` decides disjointness of the two impact sets. -/
theorem can_parallelize_eq_true_iff (dg : DependencyGraph) (a b : String) :
    can_parallelize dg a b = true ↔
      (get_impact dg a).Disjoint (get_impact dg b) := by
  simp only [can_parallelize, beq_iff_eq, List.length_eq_zero]
  exact List.inter_eq_nil_iff_disjoint

/-- C5: `can_parallelize` is symmetric, and `can_parallelize(a, a)` is false
for every id, known to the index or not. -/
theorem can_parallelize_symm_and_irrefl (dg : DependencyGraph) (a b : String) :
    can_parallelize dg a b = can_parallelize dg b a ∧
    can_parallelize dg a a = false := by
  constructor
  · rw [Bool.eq_iff_iff, can_parallelize_eq_true_iff, can_parallelize_eq_true_iff]
    exact List.disjoint_comm
  · have ha : a ∈ (get_impact dg a) ∩ (get_impact dg a) := by
      rw [List.mem_inter_iff]
      have hself : a ∈ get_impact dg a := by simp [get_impact]
      exact ⟨hself, hself⟩
    have hne : ((get_impact dg a) ∩ (get_impact dg a)).length ≠ 0 := by
      intro hlen
      rw [List.length_eq_zero] at hlen
      simp [hlen] at ha
    simpa [can_parallelize] using beq_eq_false_iff_ne.mpr hne

/-- C8 counterexample: for an id absent from the index the impact set has
size exactly 1, yet `analyze_change_risk` returns `"unknown"`, not `"low"`
— so the claim's tier rule does not hold for every id. -/
theorem analyze_change_risk_unknown_id_cex :
    (get_impact dgSingle "zzz").length = 1 ∧
    analyze_change_risk dgSingle "zzz" = "unknown" ∧
    analyze_change_risk dgSingle "zzz" ≠ "low" := by
  refine ⟨?_, rfl, ?_⟩ <;> decide

/-- C8 (amended to ids known to the index): for every id present in the
index, `analyze_change_risk` returns `"low"` when the impact set has size 1,
`"medium"` when the size is 2 or 3, and `"high"` when it exceeds 3. -/
theorem analyze_change_risk_tiers (dg : DependencyGraph) (entityId : String)
    (node : EntityNode) (h : lookupNode dg entityId = some node) :
    ((get_impact dg entityId).length = 1 → analyze_change_risk dg entityId = "low") ∧
    ((get_impact dg entityId).length = 2 ∨ (get_impact dg entityId).length = 3 →
      analyze_change_risk dg entityId = "medium") ∧
    (3 < (get_impact dg entityId).length → analyze_change_risk dg entityId = "high") := by
  refine ⟨fun h1 => ?_, fun h23 => ?_, fun h4 => ?_⟩ <;>
    simp only [analyze_change_risk, h]
  · simp [h1]
  · rcases h23 with h2 | h3
    · rw [h2]; norm_num
    · rw [h3]; norm_num
  · have hne : ¬ (get_impact dg entityId).length = 1 := by omega
    have hle : ¬ (get_impact dg entityId).length ≤ 3 := by omega
    simp [hne, hle]

/-- Witness for C8 (amended) at the scenario index: `customer` has impact
size 2 and risk `"medium"`. -/
theorem analyze_change_risk_tiers_witness :
    ((get_impact dgScenario "customer").length = 1 →
      analyze_change_risk dgScenario "customer" = "low") ∧
    ((get_impact dgScenario "customer").length = 2 ∨
        (get_impact dgScenario "customer").length = 3 →
      analyze_change_risk dgScenario "customer" = "medium") ∧
    (3 < (get_impact dgScenario "customer").length →
      analyze_change_risk dgScenario "customer" = "high") :=
  analyze_change_risk_tiers dgScenario "customer"
    { id := "customer", name := "Customer", dependencies := [], dependents := ["order"] }
    (by decide)

/-- C9: an id not present in the index gets the fourth tier `"unknown"`,
even though its impact set has size 1 (which the size rule alone would have
classified as `"low"`). -/
theorem analyze_change_risk_unknown_tier (dg : DependencyGraph) (entityId : String)
    (h : lookupNode dg entityId = none) :
    analyze_change_risk dg entityId = "unknown" ∧
    (get_impact dg entityId).length = 1 ∧
    analyze_change_risk dg entityId ≠ "low" := by
  refine ⟨by simp [analyze_change_risk, h], ?_, ?_⟩
  · simp [get_impact, get_dependents_unknown dg entityId h]
  · simp [analyze_change_risk, h]

/-- Witness for C9 at a concrete index and unknown id. -/
theorem analyze_change_risk_unknown_tier_witness :
    analyze_change_risk dgSingle "zz" = "unknown" ∧
    (get_impact dgSingle "zz").length = 1 ∧
    analyze_change_risk dgSingle "zz" ≠ "low" :=
  analyze_change_risk_unknown_tier dgSingle "zz" (by decide)

/-- C10: `get_lineage` records one entry per traversed edge end, not a
duplicate-free set: with edges `Y→X`, `Z→X`, `Z→Y` the upstream lineage of
`X` lists `Z` twice, and with the cycle `Y→X`, `X→Y` the upstream lineage of
`X` contains `X` itself. -/
theorem get_lineage_per_edge_duplicates :
    get_lineage gDiamond "X" "upstream" = ["Y", "Z", "Z"] ∧
    ¬ (get_lineage gDiamond "X" "upstream").Nodup ∧
    "X" ∈ get_lineage gCycle2 "X" "upstream" := by
  refine ⟨rfl, by decide, by decide⟩

/-- Generic preservation of a predicate along a left fold. -/
theorem foldl_preserve {α : Type} {β : Type} (Q : α → Prop) (g : α → β → α) (l : List β)
    (h : ∀ st b, b ∈ l → Q st → Q (g st b)) : ∀ st, Q st → Q (l.foldl g st) := by
  induction l with
  | nil => intro st hst; simpa using hst
  | cons b l ih =>
    intro st hst
    simp only [List.foldl_cons]
    exact ih (fun st2 b2 hb2 => h st2 b2 (List.mem_cons_of_mem _ hb2)) _
      (h st b (List.mem_cons_self _ _) hst)

/-- Generic per-element cost bound along a left fold. -/
theorem foldl_bound {α : Type} {β : Type} (μ : α → Nat) (c : β → Nat) (g : α → β → α)
    (l : List β) (h : ∀ st b, b ∈ l → μ (g st b) ≤ μ st + c b) :
    ∀ st, μ (l.foldl g st) ≤ μ st + (l.map c).sum := by
  induction l with
  | nil => intro st; simp
  | cons b l ih =>
    intro st
    simp only [List.foldl_cons, List.map_cons, List.sum_cons]
    calc μ (List.foldl g (g st b) l)
        ≤ μ (g st b) + (l.map c).sum :=
          ih (fun st2 b2 hb2 => h st2 b2 (List.mem_cons_of_mem _ hb2)) _
      _ ≤ μ st + c b + (l.map c).sum := by
          have := h st b (List.mem_cons_self _ _)
          omega
      _ = μ st + (c b + (l.map c).sum) := by omega

/-- Summing an indicator over a list counts the matching elements. -/
theorem sum_map_ite_eq_countP {β : Type} (p : β → Bool) (l : List β) :
    (l.map (fun b => if p b then 1 else 0)).sum = l.countP p := by
  induction l with
  | nil => simp
  | cons b l ih =>
    by_cases hb : p b
    · simp only [List.map_cons, List.sum_cons, List.countP_cons, hb, if_true, ih]
      omega
    · simp [List.countP_cons, hb, ih]

/-- Cons-step unfolding of the `lineOpen` potential. -/
theorem lineOpen_cons_edge (direction : String) (e : GEdge) (l : List GEdge)
    (visited : List String) :
    lineOpen direction (e :: l) visited =
      (if lineKey direction e ∈ visited then 0 else 1) + lineOpen direction l visited := by
  simp only [lineOpen, List.filter_cons]
  by_cases hv : lineKey direction e ∈ visited
  · simp [hv]
  · simp only [hv, decide_not, List.length_cons]
    simp [hv]
    omega

/-- Visiting a fresh node closes exactly the edges whose matching endpoint
is that node. -/
theorem lineOpen_cons (direction : String) (edges : List GEdge) (visited : List String)
    (current : String) (h : current ∉ visited) :
    lineOpen direction edges visited =
      lineOpen direction edges (current :: visited) +
        edges.countP (fun e => decide (lineKey direction e = current)) := by
  induction edges with
  | nil => simp [lineOpen]
  | cons e l ih =>
    rw [lineOpen_cons_edge, lineOpen_cons_edge, List.countP_cons]
    by_cases hk : lineKey direction e = current
    · have e1 : (if lineKey direction e ∈ visited then 0 else 1) = 1 := by
        rw [hk]; simp [h]
      have e2 : (if lineKey direction e ∈ current :: visited then (0 : Nat) else 1) = 0 := by
        rw [hk]; simp
      rw [e1, e2]
      simp only [hk, decide_eq_true_eq]
      rw [if_pos trivial]
      omega
    · have h2 : (lineKey direction e ∈ current :: visited) ↔ (lineKey direction e ∈ visited) := by
        simp [List.mem_cons, hk]
      have h3 : (decide (lineKey direction e = current)) = false := by
        simpa using hk
      rw [h3]
      by_cases hv : lineKey direction e ∈ visited
      · rw [if_pos hv, if_pos (h2.mpr hv)]
        simp only [Bool.false_eq_true, if_false]
        omega
      · rw [if_neg hv, if_neg (fun hc => hv (h2.mp hc))]
        simp only [Bool.false_eq_true, if_false]
        omega

/-- Every entry ever appended to the `result` of the lineage traversal is
the collected endpoint of some edge of the graph. -/
theorem traverse_entries (edges : List GEdge) (direction : String) :
    ∀ fuel : Nat, ∀ st : List String × List String, ∀ current : String,
      (∀ x ∈ st.2, ∃ e ∈ edges, x = lineVal direction e) →
      ∀ x ∈ (traverseStep edges direction fuel st current).2,
        ∃ e ∈ edges, x = lineVal direction e := by
  intro fuel
  induction fuel with
  | zero => intro st current h; simpa [traverseStep] using h
  | succ n ih =>
    intro st current h
    by_cases hv : current ∈ st.1
    · simpa [traverseStep, hv] using h
    · simp only [traverseStep, hv, if_false]
      refine @foldl_preserve (List String × List String) GEdge
        (fun st2 => ∀ x ∈ st2.2, ∃ e ∈ edges, x = lineVal direction e) _ edges
        ?_ _ (by exact h)
      intro st2 e he hst2
      dsimp only
      by_cases hup : (direction == "upstream" && e.target == current) = true
      · simp only [hup, if_true]
        refine ih _ _ ?_
        intro x hx
        rcases List.mem_append.mp hx with hx | hx
        · exact hst2 x hx
        · simp only [Bool.and_eq_true, beq_iff_eq] at hup
          refine ⟨e, he, ?_⟩
          simp only [List.mem_singleton] at hx
          simp [hx, lineVal, hup.1]
      · simp only [hup, if_false]
        by_cases hdn : (direction == "downstream" && e.source == current) = true
        · simp only [hdn, if_true]
          refine ih _ _ ?_
          intro x hx
          rcases List.mem_append.mp hx with hx | hx
          · exact hst2 x hx
          · simp only [Bool.and_eq_true, beq_iff_eq] at hdn
            refine ⟨e, he, ?_⟩
            simp only [List.mem_singleton] at hx
            simp [hx, lineVal, hdn.1]
        · simp only [hdn, if_false]
          exact hst2

/-- The measure `|result| + lineOpen(visited)` never increases across a
lineage traversal: every appended entry is paid for by an edge whose
matching endpoint becomes visited. -/
theorem traverse_measure (edges : List GEdge) (direction : String) :
    ∀ fuel : Nat, ∀ st : List String × List String, ∀ current : String,
      (traverseStep edges direction fuel st current).2.length +
          lineOpen direction edges (traverseStep edges direction fuel st current).1 ≤
        st.2.length + lineOpen direction edges st.1 := by
  intro fuel
  induction fuel with
  | zero => intro st current; simp [traverseStep]
  | succ n ih =>
    intro st current
    by_cases hv : current ∈ st.1
    · simp [traverseStep, hv]
    · simp only [traverseStep, hv, if_false]
      have inner : ∀ l : List GEdge, (∀ e ∈ l, e ∈ edges) →
          ∀ st2 : List String × List String,
          (l.foldl (fun st2 e =>
              if direction == "upstream" && e.target == current then
                traverseStep edges direction n (st2.1, st2.2 ++ [e.source]) e.source
              else if direction == "downstream" && e.source == current then
                traverseStep edges direction n (st2.1, st2.2 ++ [e.target]) e.target
              else st2) st2).2.length +
            lineOpen direction edges
              (l.foldl (fun st2 e =>
                if direction == "upstream" && e.target == current then
                  traverseStep edges direction n (st2.1, st2.2 ++ [e.source]) e.source
                else if direction == "downstream" && e.source == current then
                  traverseStep edges direction n (st2.1, st2.2 ++ [e.target]) e.target
                else st2) st2).1 ≤
            st2.2.length + lineOpen direction edges st2.1 +
              l.countP (fun e => decide (lineKey direction e = current)) := by
        intro l
        induction l with
        | nil => intro _ st2; simp
        | cons e l ihl =>
          intro hsub st2
          simp only [List.foldl_cons, List.countP_cons]
          have htail := ihl (fun e2 he2 => hsub e2 (List.mem_cons_of_mem _ he2))
          by_cases hup : (direction == "upstream" && e.target == current) = true
          · have hkey : decide (lineKey direction e = current) = true := by
              simp only [Bool.and_eq_true, beq_iff_eq] at hup
              simp [lineKey, hup.1, hup.2]
            have hstep := ih (st2.1, st2.2 ++ [e.source]) e.source
            simp only [List.length_append, List.length_singleton] at hstep
            have h2 := htail (traverseStep edges direction n (st2.1, st2.2 ++ [e.source]) e.source)
            simp only [hup, hkey, eq_self_iff_true, if_true]
            omega
          · simp only [hup, Bool.false_eq_true, if_false]
            by_cases hdn : (direction == "downstream" && e.source == current) = true
            · have hkey : decide (lineKey direction e = current) = true := by
                simp only [Bool.and_eq_true, beq_iff_eq] at hdn
                have hne : ¬ (direction == "upstream") = true := by
                  simp [hdn.1]
                simp [lineKey, hdn.1, hdn.2, hne]
              have hstep := ih (st2.1, st2.2 ++ [e.target]) e.target
              simp only [List.length_append, List.length_singleton] at hstep
              have h2 := htail (traverseStep edges direction n (st2.1, st2.2 ++ [e.target]) e.target)
              simp only [hdn, hkey, eq_self_iff_true, if_true]
              omega
            · simp only [hdn, Bool.false_eq_true, if_false]
              have h2 := htail st2
              omega
      have hopen := lineOpen_cons direction edges st.1 current hv
      have hfinal := inner edges (fun _ he => he) (current :: st.1, st.2)
      dsimp only at hfinal
      omega

/-- The empty visited set leaves every edge open. -/
theorem lineOpen_nil (direction : String) (edges : List GEdge) :
    lineOpen direction edges [] = edges.length := by
  simp [lineOpen]

/-- C6 counterexample: on the persisted graph with edges `Y→X`, `Z→X`,
`Z→Y`, the upstream lineage of `X` is `["Y", "Z", "Z"]` — not the
duplicate-free list `["Y", "Z"]` of reached ids in visitation order that
the claim describes (`Z` is reached once but listed twice). -/
theorem get_lineage_reached_ids_cex :
    get_lineage gDiamond "X" "upstream" = ["Y", "Z", "Z"] ∧
    get_lineage gDiamond "X" "upstream" ≠ ["Y", "Z"] ∧
    ¬ (get_lineage gDiamond "X" "upstream").Nodup :=
  ⟨rfl, by decide, by decide⟩

/-- C6 (amended): `get_lineage` terminates via the visited-set-guarded
depth-first traversal, expanding each node at most once; in the scenario
graph with edges `Y→X` and `Z→Y` the upstream lineage of `X` is
`["Y", "Z"]`; and in general the returned list collects one entry per
traversed edge — the edge's `source` for `upstream`, its `target` for
`downstream`, hence at most one entry per edge of the graph — rather than
a duplicate-free set of reached nodes. -/
theorem get_lineage_scenario_and_per_edge :
    get_lineage gLine "X" "upstream" = ["Y", "Z"] ∧
    (∀ g : GraphDoc, ∀ nodeId : String, ∀ x ∈ get_lineage g nodeId "upstream",
      ∃ e ∈ g.edges, x = e.source) ∧
    (∀ g : GraphDoc, ∀ nodeId : String, ∀ x ∈ get_lineage g nodeId "downstream",
      ∃ e ∈ g.edges, x = e.target) ∧
    (∀ g : GraphDoc, ∀ nodeId direction : String,
      (get_lineage g nodeId direction).length ≤ g.edges.length) := by
  refine ⟨rfl, ?_, ?_, ?_⟩
  · intro g nodeId x hx
    obtain ⟨e, he, hve⟩ :=
      traverse_entries g.edges "upstream" (lineageBound g.edges) ([], []) nodeId
        (by simp) x hx
    exact ⟨e, he, by simpa [lineVal] using hve⟩
  · intro g nodeId x hx
    obtain ⟨e, he, hve⟩ :=
      traverse_entries g.edges "downstream" (lineageBound g.edges) ([], []) nodeId
        (by simp) x hx
    exact ⟨e, he, by simpa [lineVal] using hve⟩
  · intro g nodeId direction
    have hm := traverse_measure g.edges direction (lineageBound g.edges) ([], []) nodeId
    have h0 := lineOpen_nil direction g.edges
    simp only [get_lineage]
    simp only [List.length_nil] at hm
    rw [h0] at hm
    omega

/-- Witness for C6 (amended), discharging the membership hypotheses at the
diamond graph. -/
theorem get_lineage_scenario_and_per_edge_witness :
    get_lineage gLine "X" "upstream" = ["Y", "Z"] ∧
    (∃ e ∈ gDiamond.edges, "Z" = e.source) ∧
    (get_lineage gDiamond "X" "upstream").length ≤ gDiamond.edges.length :=
  ⟨get_lineage_scenario_and_per_edge.1,
   get_lineage_scenario_and_per_edge.2.1 gDiamond "X" "Z" (by decide),
   get_lineage_scenario_and_per_edge.2.2.2 gDiamond "X" "upstream"⟩

/-- Generic preservation of a predicate along an `Option`-valued left fold
(a loop body that can raise). -/
theorem foldlM_option_preserve {α : Type} {β : Type} (Q : α → Prop) (g : α → β → Option α)
    (l : List β) (h : ∀ st b, b ∈ l → Q st → ∀ st2, g st b = some st2 → Q st2) :
    ∀ st out, Q st → l.foldlM g st = some out → Q out := by
  induction l with
  | nil =>
    intro st out hst hout
    simp only [List.foldlM_nil, Option.pure_def, Option.some.injEq] at hout
    exact hout ▸ hst
  | cons b l ih =>
    intro st out hst hout
    rw [List.foldlM_cons] at hout
    cases hg : g st b with
    | none => rw [hg] at hout; exact Option.noConfusion hout
    | some st2 =>
      rw [hg] at hout
      exact ih (fun s3 b2 hb2 => h s3 b2 (List.mem_cons_of_mem _ hb2)) st2 out
        (h st b (List.mem_cons_self _ _) hst st2 hg) hout

/-- If `mapM` succeeds, every input element is mapped to some output
element. -/
theorem mapM_option_mem {α β : Type} (f : α → Option β) :
    ∀ (l : List α) (out : List β), l.mapM f = some out →
      ∀ a ∈ l, ∃ b ∈ out, f a = some b := by
  intro l
  induction l with
  | nil => intro out _ a ha; exact absurd ha (List.not_mem_nil a)
  | cons x l ih =>
    intro out hout a ha
    rw [List.mapM_cons] at hout
    cases hx : f x with
    | none => rw [hx] at hout; exact Option.noConfusion hout
    | some b =>
      rw [hx] at hout
      cases hl : l.mapM f with
      | none => rw [hl] at hout; exact Option.noConfusion hout
      | some bs =>
        rw [hl] at hout
        obtain rfl : b :: bs = out := Option.some.inj hout
        rcases List.mem_cons.mp ha with rfl | ha2
        · exact ⟨b, List.mem_cons_self _ _, hx⟩
        · obtain ⟨b2, hb2, hfb2⟩ := ih bs hl a ha2
          exact ⟨b2, List.mem_cons_of_mem _ hb2, hfb2⟩

/-- If some input element is mapped to `none`, the whole `mapM` raises. -/
theorem mapM_option_none {α β : Type} (f : α → Option β) :
    ∀ (l : List α) (a : α), a ∈ l → f a = none → l.mapM f = none := by
  intro l
  induction l with
  | nil => intro a ha; exact absurd ha (List.not_mem_nil a)
  | cons x l ih =>
    intro a ha hfa
    rw [List.mapM_cons]
    rcases List.mem_cons.mp ha with rfl | ha2
    · rw [hfa]; rfl
    · cases hx : f x with
      | none => rfl
      | some b => rw [ih a ha2 hfa]; rfl

/-- C7 counterexample: on a specs input holding one malformed entity record
(missing `name`) and one perfectly valid record, the compiler raises
(`none`): no graph over the remaining valid records is produced and no list
of rejected records is returned — the valid record alone would have
compiled to a node. -/
theorem generate_graph_malformed_aborts_cex :
    generate_graph specsBad = none ∧
    (∃ nd, entity_to_node
        { name := some "Customer", owner := none, criticality := none, fields := [] }
          = some nd) :=
  ⟨rfl, ⟨_, rfl⟩⟩

/-- C7 (amended): an entity record missing the required `name` makes
`entity_to_node` raise `KeyError`, which aborts the whole compilation — no
graph document, no partial node and no rejected-record list are produced
(the surrounding `SpecCompiler._run_generator` records one generator-level
error for the batch). -/
theorem generate_graph_malformed_aborts (specs : Specs)
    (h : ∃ entity ∈ specs.entities, entity.name = none) :
    generate_graph specs = none := by
  obtain ⟨entity, hmem, hname⟩ := h
  have hnode : entity_to_node entity = none := by
    simp [entity_to_node, hname]
  have hmap : specs.entities.mapM entity_to_node = none :=
    mapM_option_none entity_to_node specs.entities entity hmem hnode
  unfold generate_graph
  rw [hmap]
  rfl

/-- Witness for C7 (amended) at the concrete malformed specs input. -/
theorem generate_graph_malformed_aborts_witness :
    generate_graph specsBad = none :=
  generate_graph_malformed_aborts specsBad
    ⟨{ name := none, owner := none, criticality := none, fields := [] },
     List.mem_cons_self _ _, rfl⟩

/-- The edges contributed by one entity extend the accumulator only with
edges whose target passed the node-existence check and whose source is the
entity's own node id. -/
theorem edgesForEntity_spec (nodeIds : List String) (entity : EntitySpec)
    (acc out : List GEdge) (h : edgesForEntity nodeIds acc entity = some out) :
    ∃ nm, entity.name = some nm ∧
      ∀ e ∈ out, e ∈ acc ∨
        (e.target ∈ nodeIds ∧ e.source = "asset.entity." ++ strLower nm) := by
  cases hn : entity.name with
  | none =>
    unfold edgesForEntity at h
    rw [hn] at h
    exact Option.noConfusion h
  | some nm =>
    refine ⟨nm, rfl, ?_⟩
    unfold edgesForEntity at h
    rw [hn] at h
    refine @foldlM_option_preserve (List GEdge) FieldSpec
      (fun a => ∀ e ∈ a, e ∈ acc ∨
        (e.target ∈ nodeIds ∧ e.source = "asset.entity." ++ strLower nm))
      _ entity.fields ?_ acc out (fun e he => Or.inl he) h
    intro acc2 field _ hQ out2 hstep
    by_cases ht : field.ftype = some "uuid"
    · rw [if_pos ht] at hstep
      cases hr : field.references with
      | none =>
        rw [hr] at hstep
        obtain rfl : acc2 = out2 := Option.some.inj hstep
        exact hQ
      | some r =>
        rw [hr] at hstep
        dsimp only at hstep
        by_cases hre : r = ""
        · rw [if_pos hre] at hstep
          obtain rfl : acc2 = out2 := Option.some.inj hstep
          exact hQ
        · rw [if_neg hre] at hstep
          by_cases hm : ("asset.entity." ++ strLower r) ∈ nodeIds
          · rw [if_pos hm] at hstep
            cases hfn : field.fname with
            | none =>
              rw [hfn] at hstep
              exact Option.noConfusion hstep
            | some fn =>
              rw [hfn] at hstep
              have hstep2 :
                  (some (acc2 ++
                    [{ source := "asset.entity." ++ strLower nm,
                       target := "asset.entity." ++ strLower r,
                       relation := "DEPENDS_ON",
                       semantics := fn ++ " references " ++ strLower r }]) :
                    Option (List GEdge)) = some out2 := hstep
              obtain rfl :
                  acc2 ++
                    [{ source := "asset.entity." ++ strLower nm,
                       target := "asset.entity." ++ strLower r,
                       relation := "DEPENDS_ON",
                       semantics := fn ++ " references " ++ strLower r }] = out2 :=
                Option.some.inj hstep2
              intro e he
              rcases List.mem_append.mp he with he2 | he2
              · exact hQ e he2
              · simp only [List.mem_singleton] at he2
                subst he2
                exact Or.inr ⟨hm, rfl⟩
          · rw [if_neg hm] at hstep
            obtain rfl : acc2 = out2 := Option.some.inj hstep
            exact hQ
    · rw [if_neg ht] at hstep
      obtain rfl : acc2 = out2 := Option.some.inj hstep
      exact hQ

/-- The edges contributed by one workflow extend the accumulator only with
edges whose target passed the node-existence check and whose source is the
workflow's own node id. -/
theorem edgesForWorkflow_spec (nodeIds : List String) (acc : List GEdge)
    (workflow : WorkflowSpec) :
    ∀ e ∈ edgesForWorkflow nodeIds acc workflow,
      e ∈ acc ∨ (e.target ∈ nodeIds ∧
        e.source = "wf.process." ++ (workflow.wid.getD (workflow.name.getD "unknown"))) := by
  have hprod : ∀ a : List GEdge,
      (∀ e ∈ a, e ∈ acc ∨ (e.target ∈ nodeIds ∧
        e.source = "wf.process." ++ (workflow.wid.getD (workflow.name.getD "unknown")))) →
      ∀ e ∈ workflow.produces.foldl
        (fun a p =>
          if ("asset.entity." ++ strLower p) ∈ nodeIds then
            a ++ [{ source := "wf.process." ++ (workflow.wid.getD (workflow.name.getD "unknown")),
                    target := "asset.entity." ++ strLower p, relation := "PRODUCES",
                    semantics := "Workflow produces " ++ p }]
          else a) a,
        e ∈ acc ∨ (e.target ∈ nodeIds ∧
          e.source = "wf.process." ++ (workflow.wid.getD (workflow.name.getD "unknown"))) := by
    intro a ha
    refine @foldl_preserve (List GEdge) String
      (fun a2 => ∀ e ∈ a2, e ∈ acc ∨ (e.target ∈ nodeIds ∧
        e.source = "wf.process." ++ (workflow.wid.getD (workflow.name.getD "unknown"))))
      _ workflow.produces ?_ a ha
    intro a2 p _ hQ e he
    by_cases hm : ("asset.entity." ++ strLower p) ∈ nodeIds
    · rw [if_pos hm] at he
      rcases List.mem_append.mp he with h2 | h2
      · exact hQ e h2
      · simp only [List.mem_singleton] at h2
        subst h2
        exact Or.inr ⟨hm, rfl⟩
    · rw [if_neg hm] at he
      exact hQ e he
  have hcons : ∀ a : List GEdge,
      (∀ e ∈ a, e ∈ acc ∨ (e.target ∈ nodeIds ∧
        e.source = "wf.process." ++ (workflow.wid.getD (workflow.name.getD "unknown")))) →
      ∀ e ∈ workflow.consumes.foldl
        (fun a c =>
          if ("asset.entity." ++ strLower c) ∈ nodeIds then
            a ++ [{ source := "wf.process." ++ (workflow.wid.getD (workflow.name.getD "unknown")),
                    target := "asset.entity." ++ strLower c, relation := "CONSUMES",
                    semantics := "Workflow consumes " ++ c }]
          else a) a,
        e ∈ acc ∨ (e.target ∈ nodeIds ∧
          e.source = "wf.process." ++ (workflow.wid.getD (workflow.name.getD "unknown"))) := by
    intro a ha
    refine @foldl_preserve (List GEdge) String
      (fun a2 => ∀ e ∈ a2, e ∈ acc ∨ (e.target ∈ nodeIds ∧
        e.source = "wf.process." ++ (workflow.wid.getD (workflow.name.getD "unknown"))))
      _ workflow.consumes ?_ a ha
    intro a2 c _ hQ e he
    by_cases hm : ("asset.entity." ++ strLower c) ∈ nodeIds
    · rw [if_pos hm] at he
      rcases List.mem_append.mp he with h2 | h2
      · exact hQ e h2
      · simp only [List.mem_singleton] at h2
        subst h2
        exact Or.inr ⟨hm, rfl⟩
    · rw [if_neg hm] at he
      exact hQ e he
  intro e he
  exact hcons _ (hprod acc (fun e2 he2 => Or.inl he2)) e he

/-- C3: whenever the compiler produces a graph document, every edge of the
document has a source id and a target id that both occur among the ids of
the document's nodes; a candidate edge whose referenced node does not exist
never survives `build_edges`. -/
theorem generate_graph_edge_endpoints (specs : Specs) (g : GraphDoc)
    (h : generate_graph specs = some g) :
    ∀ e ∈ g.edges,
      e.source ∈ g.nodes.map (fun n => n.id) ∧
      e.target ∈ g.nodes.map (fun n => n.id) := by
  unfold generate_graph at h
  cases hen : specs.entities.mapM entity_to_node with
  | none => rw [hen] at h; exact Option.noConfusion h
  | some entityNodes =>
    rw [hen] at h
    have h2 : (build_edges specs
          (entityNodes ++ specs.algorithms.map algorithm_to_node
            ++ specs.workflows.map workflow_to_node) >>= fun edges =>
        (pure { version := "2.0",
                nodes := entityNodes ++ specs.algorithms.map algorithm_to_node
                  ++ specs.workflows.map workflow_to_node,
                edges := edges } : Option GraphDoc)) = some g := h
    cases hbe : build_edges specs
        (entityNodes ++ specs.algorithms.map algorithm_to_node
          ++ specs.workflows.map workflow_to_node) with
    | none => rw [hbe] at h2; exact Option.noConfusion h2
    | some edges =>
      rw [hbe] at h2
      have h3 := Option.some.inj h2
      subst h3
      unfold build_edges at hbe
      have hbe2 : (specs.entities.foldlM
          (edgesForEntity ((entityNodes ++ specs.algorithms.map algorithm_to_node
            ++ specs.workflows.map workflow_to_node).map (fun n => n.id))) [] >>=
          fun entityEdges =>
            (pure (specs.workflows.foldl
              (edgesForWorkflow ((entityNodes ++ specs.algorithms.map algorithm_to_node
                ++ specs.workflows.map workflow_to_node).map (fun n => n.id)))
              entityEdges) : Option (List GEdge))) = some edges := hbe
      cases hee : specs.entities.foldlM
          (edgesForEntity ((entityNodes ++ specs.algorithms.map algorithm_to_node
            ++ specs.workflows.map workflow_to_node).map (fun n => n.id))) [] with
      | none => rw [hee] at hbe2; exact Option.noConfusion hbe2
      | some entityEdges =>
        rw [hee] at hbe2
        have h4 := Option.some.inj hbe2
        subst h4
        have hB : ∀ e2 ∈ entityEdges,
            e2.target ∈ (entityNodes ++ specs.algorithms.map algorithm_to_node
              ++ specs.workflows.map workflow_to_node).map (fun n => n.id) ∧
            ∃ ent ∈ specs.entities, ∃ nm, ent.name = some nm ∧
              e2.source = "asset.entity." ++ strLower nm := by
          refine @foldlM_option_preserve (List GEdge) EntitySpec
            (fun a => ∀ e2 ∈ a,
              e2.target ∈ (entityNodes ++ specs.algorithms.map algorithm_to_node
                ++ specs.workflows.map workflow_to_node).map (fun n => n.id) ∧
              ∃ ent ∈ specs.entities, ∃ nm, ent.name = some nm ∧
                e2.source = "asset.entity." ++ strLower nm)
            _ specs.entities ?_ [] entityEdges (by simp) hee
          intro acc ent hent hQ out2 hstep
          obtain ⟨nm, hnm, hout2⟩ := edgesForEntity_spec _ ent acc out2 hstep
          intro e2 he2
          rcases hout2 e2 he2 with h3 | ⟨ht, hs⟩
          · exact hQ e2 h3
          · exact ⟨ht, ent, hent, nm, hnm, hs⟩
        have hA : ∀ e2 ∈ specs.workflows.foldl
            (edgesForWorkflow ((entityNodes ++ specs.algorithms.map algorithm_to_node
              ++ specs.workflows.map workflow_to_node).map (fun n => n.id)))
            entityEdges,
            e2 ∈ entityEdges ∨
              (e2.target ∈ (entityNodes ++ specs.algorithms.map algorithm_to_node
                ++ specs.workflows.map workflow_to_node).map (fun n => n.id) ∧
              ∃ wf ∈ specs.workflows,
                e2.source = "wf.process." ++ (wf.wid.getD (wf.name.getD "unknown"))) := by
          refine @foldl_preserve (List GEdge) WorkflowSpec
            (fun a => ∀ e2 ∈ a, e2 ∈ entityEdges ∨
              (e2.target ∈ (entityNodes ++ specs.algorithms.map algorithm_to_node
                ++ specs.workflows.map workflow_to_node).map (fun n => n.id) ∧
              ∃ wf ∈ specs.workflows,
                e2.source = "wf.process." ++ (wf.wid.getD (wf.name.getD "unknown"))))
            _ specs.workflows ?_ entityEdges (fun e2 he2 => Or.inl he2)
          intro a wf hwf hQ e2 he2
          rcases edgesForWorkflow_spec _ a wf e2 he2 with h3 | ⟨ht, hs⟩
          · exact hQ e2 h3
          · exact Or.inr ⟨ht, wf, hwf, hs⟩
        intro e he
        rcases hA e he with he2 | ⟨ht, wf, hwf, hs⟩
        · obtain ⟨ht, ent, hent, nm, hnm, hs⟩ := hB e he2
          refine ⟨?_, ht⟩
          obtain ⟨nd, hnd, hentnode⟩ :=
            mapM_option_mem entity_to_node specs.entities entityNodes hen ent hent
          have hid : nd.id = "asset.entity." ++ strLower nm := by
            unfold entity_to_node at hentnode
            rw [hnm] at hentnode
            have h3 := Option.some.inj hentnode
            rw [← h3]
          rw [hs, ← hid]
          exact List.mem_map.mpr
            ⟨nd, List.mem_append.mpr (Or.inl (List.mem_append.mpr (Or.inl hnd))), rfl⟩
        · refine ⟨?_, ht⟩
          rw [hs]
          refine List.mem_map.mpr
            ⟨workflow_to_node wf,
             List.mem_append.mpr (Or.inr (List.mem_map.mpr ⟨wf, hwf, rfl⟩)), ?_⟩
          rfl

/-- Witness for C3 at the concrete well-formed specs and the first edge the
compiler emits: the hypotheses are discharged by computing the compiler's
output. -/
theorem generate_graph_edge_endpoints_witness :
    (gGood.edges.getD 0 (mkEdge "" "")).source ∈ gGood.nodes.map (fun n => n.id) ∧
    (gGood.edges.getD 0 (mkEdge "" "")).target ∈ gGood.nodes.map (fun n => n.id) :=
  generate_graph_edge_endpoints specsGood gGood (by decide)
    (gGood.edges.getD 0 (mkEdge "" "")) (by decide)

/-- With nothing popped, `remDeg` counts all in-set dependencies. -/
theorem remDeg_nil (dg : DependencyGraph) (entities : List String) (x : String) :
    remDeg dg entities [] x = (adjDeps dg x).countP (fun d => decide (d ∈ entities)) := by
  unfold remDeg
  rw [List.countP_eq_length_filter]
  congr 1
  apply List.filter_congr
  intro d _
  simp

/-- Popping `current` removes exactly its occurrences from every remaining
in-set dependency count. -/
theorem remDeg_pop (dg : DependencyGraph) (entities popped : List String) (current : String)
    (hce : current ∈ entities) (hcp : current ∉ popped) (x : String) :
    remDeg dg entities popped x =
      remDeg dg entities (popped ++ [current]) x + (adjDeps dg x).count current := by
  unfold remDeg
  induction adjDeps dg x with
  | nil => simp
  | cons d l ih =>
    rw [List.filter_cons, List.filter_cons, List.count_cons]
    by_cases hdc : d = current
    · have c1 : (decide (d ∈ entities) && decide (¬ d ∈ popped)) = true := by
        simp [hdc, hce, hcp]
      have c2 : (decide (d ∈ entities) && decide (¬ d ∈ popped ++ [current])) = false := by
        simp [hdc]
      have c3 : (d == current) = true := beq_iff_eq.mpr hdc
      rw [c1, c2, c3]
      simp only [if_true, Bool.false_eq_true, if_false, List.length_cons]
      omega
    · have c2 : (decide (d ∈ entities) && decide (¬ d ∈ popped ++ [current]))
          = (decide (d ∈ entities) && decide (¬ d ∈ popped)) := by
        simp [List.mem_append, hdc]
      have c3 : (d == current) = false := beq_eq_false_iff_ne.mpr hdc
      rw [c2, c3]
      by_cases hc : (decide (d ∈ entities) && decide (¬ d ∈ popped)) = true
      · rw [hc]
        simp only [if_true, List.length_cons, Bool.false_eq_true, if_false]
        omega
      · rw [Bool.not_eq_true] at hc
        rw [hc]
        simp only [Bool.false_eq_true, if_false]
        omega

/-- A dependency count of zero means every in-set dependency was popped. -/
theorem remDeg_zero_popped (dg : DependencyGraph) (entities popped : List String)
    (x : String) (h : remDeg dg entities popped x = 0) :
    ∀ s, DepEdge dg entities s x → s ∈ popped := by
  intro s hs
  unfold remDeg at h
  rw [List.length_eq_zero, List.filter_eq_nil_iff] at h
  have h2 := h s hs.2.2
  simp only [Bool.and_eq_true, decide_eq_true_eq, not_and, Bool.not_eq_true] at h2
  by_contra hsp
  simp [hs.2.1, hsp] at h2

/-- A positive dependency count exhibits an unpopped in-set dependency. -/
theorem remDeg_pos_edge (dg : DependencyGraph) (entities popped : List String)
    (x : String) (hx : x ∈ entities) (h : 1 ≤ remDeg dg entities popped x) :
    ∃ s, DepEdge dg entities s x ∧ s ∉ popped := by
  unfold remDeg at h
  have hne : (adjDeps dg x).filter
      (fun d => decide (d ∈ entities) && decide (¬ d ∈ popped)) ≠ [] := by
    intro hnil
    rw [hnil] at h
    simp at h
  obtain ⟨s, hs⟩ := List.exists_mem_of_ne_nil _ hne
  have hs2 := List.mem_filter.mp hs
  simp only [Bool.and_eq_true, decide_eq_true_eq] at hs2
  exact ⟨s, ⟨hx, hs2.2.1, hs2.1⟩, hs2.2.2⟩

/-- If every in-set dependency of `x` was popped, its count is zero. -/
theorem remDeg_zero_of_popped (dg : DependencyGraph) (entities popped : List String)
    (x : String) (hx : x ∈ entities) (h : ∀ s, DepEdge dg entities s x → s ∈ popped) :
    remDeg dg entities popped x = 0 := by
  unfold remDeg
  rw [List.length_eq_zero, List.filter_eq_nil_iff]
  intro d hd
  simp only [Bool.and_eq_true, decide_eq_true_eq, not_and, Bool.not_eq_true]
  intro hde
  simp [h d ⟨hx, hde, hd⟩]

/-- Multiplicity of `current` among the dependencies never exceeds the
remaining count while `current` is unpopped. -/
theorem count_le_remDeg (dg : DependencyGraph) (entities popped : List String)
    (current : String) (hce : current ∈ entities) (hcp : current ∉ popped) (x : String) :
    (adjDeps dg x).count current ≤ remDeg dg entities popped x := by
  have h := remDeg_pop dg entities popped current hce hcp x
  omega

/-- A duplicate-free list included in another is no longer than it. -/
theorem nodup_subset_length {l1 l2 : List String} (h1 : l1.Nodup)
    (hsub : ∀ x ∈ l1, x ∈ l2) : l1.length ≤ l2.length := by
  calc l1.length = l1.toFinset.card := (List.toFinset_card_of_nodup h1).symm
    _ ≤ l2.toFinset.card := by
        apply Finset.card_le_card
        intro a ha
        rw [List.mem_toFinset] at ha ⊢
        exact hsub a ha
    _ ≤ l2.length := List.toFinset_card_le l2

/-- A duplicate-free list included in another but missing one of its
elements is strictly shorter. -/
theorem nodup_subset_missing_length_lt {l1 l2 : List String} (h1 : l1.Nodup)
    (hsub : ∀ x ∈ l1, x ∈ l2) (y : String) (hy2 : y ∈ l2) (hy1 : y ∉ l1) :
    l1.length < l2.length := by
  have hstep : l1.toFinset ⊆ l2.toFinset.erase y := by
    intro a ha
    rw [List.mem_toFinset] at ha
    rw [Finset.mem_erase, List.mem_toFinset]
    exact ⟨fun hay => hy1 (hay ▸ ha), hsub a ha⟩
  have hcard : l1.toFinset.card ≤ l2.toFinset.card - 1 := by
    calc l1.toFinset.card ≤ (l2.toFinset.erase y).card := Finset.card_le_card hstep
      _ = l2.toFinset.card - 1 := Finset.card_erase_of_mem (List.mem_toFinset.mpr hy2)
  have hpos : 1 ≤ l2.toFinset.card := by
    have : y ∈ l2.toFinset := List.mem_toFinset.mpr hy2
    exact Finset.card_pos.mpr ⟨y, this⟩
  have h1c := List.toFinset_card_of_nodup h1
  have h2c := List.toFinset_card_le l2
  omega

/-- Membership in a prefix bounds the first-occurrence index. -/
theorem indexOf_lt_of_mem_take {a : String} :
    ∀ (l : List String) (i : Nat), a ∈ l.take i → l.indexOf a < i := by
  intro l
  induction l with
  | nil => intro i h; simp at h
  | cons b l ih =>
    intro i h
    cases i with
    | zero => simp at h
    | succ i =>
      rw [List.take_succ_cons] at h
      by_cases hab : a = b
      · subst hab
        rw [List.indexOf_cons_self]
        omega
      · rcases List.mem_cons.mp h with h2 | h2
        · exact absurd h2 hab
        · rw [List.indexOf_cons_ne _ (fun h3 => hab h3.symm)]
          have := ih i h2
          omega

/-- Effect of the inner dependency loop of `buildDegAdj` (one entity's
`for dep in dependencies` pass) on the in-degree map and the adjacency. -/
theorem buildInner_spec (entities : List String) (entity : String) :
    ∀ (D : List String) (st : (String → Int) × (String → List String)),
      (∀ x, (D.foldl (buildDepStep entities entity) st).1 x =
        if x = entity then
          st.1 x + ((D.countP (fun d => decide (d ∈ entities)) : Nat) : Int)
        else st.1 x) ∧
      (∀ d, (D.foldl (buildDepStep entities entity) st).2 d =
        if d ∈ entities then st.2 d ++ List.replicate (D.count d) entity else st.2 d) := by
  intro D
  induction D with
  | nil =>
    intro st
    constructor
    · intro x
      by_cases hx : x = entity <;> simp [hx]
    · intro d
      by_cases hd : d ∈ entities <;> simp [hd]
  | cons dep D ih =>
    intro st
    simp only [List.foldl_cons, buildDepStep]
    by_cases hmem : dep ∈ entities
    · rw [if_pos hmem]
      obtain ⟨ih1, ih2⟩ := ih (updF st.1 entity (st.1 entity + 1),
        updAdj st.2 dep (st.2 dep ++ [entity]))
      constructor
      · intro x
        rw [ih1 x]
        by_cases hx : x = entity
        · rw [if_pos hx, if_pos hx, List.countP_cons]
          have hdp : decide (dep ∈ entities) = true := by simpa using hmem
          rw [hdp, hx]
          simp [updF]
          ring
        · rw [if_neg hx, if_neg hx]
          simp [updF, hx]
      · intro d
        rw [ih2 d]
        by_cases hd : d ∈ entities
        · rw [if_pos hd, if_pos hd]
          simp only [updAdj]
          by_cases hdd : d = dep
          · rw [if_pos hdd, List.count_cons]
            have hbeq : (dep == d) = true := beq_iff_eq.mpr hdd.symm
            rw [hbeq, hdd]
            simp [List.replicate_succ, List.append_assoc]
          · rw [if_neg hdd, List.count_cons]
            have hbeq : (dep == d) = false := beq_eq_false_iff_ne.mpr (fun h => hdd h.symm)
            rw [hbeq]
            simp
        · rw [if_neg hd, if_neg hd]
          simp only [updAdj]
          have hdd : ¬ d = dep := fun h => hd (h ▸ hmem)
          rw [if_neg hdd]
    · rw [if_neg hmem]
      obtain ⟨ih1, ih2⟩ := ih st
      constructor
      · intro x
        rw [ih1 x]
        by_cases hx : x = entity
        · rw [if_pos hx, if_pos hx, List.countP_cons]
          have hdp : (decide (dep ∈ entities)) = false := by simpa using hmem
          rw [hdp]
          simp
        · rw [if_neg hx, if_neg hx]
      · intro d
        rw [ih2 d]
        by_cases hd : d ∈ entities
        · rw [if_pos hd, if_pos hd, List.count_cons]
          have hdd : (dep == d) = false := by
            refine beq_eq_false_iff_ne.mpr fun h => hmem (h ▸ hd)
          rw [hdd]
          simp
        · rw [if_neg hd, if_neg hd]

/-- Effect of the full first phase of `get_change_order`: the in-degree of
`x` accumulates one in-set dependency count per occurrence of `x` in the
processed list, and the adjacency at `d` lists each processed entity once
per occurrence of `d` among its dependencies. -/
theorem buildOuter_spec (dg : DependencyGraph) (entities : List String) :
    ∀ (L : List String) (st : (String → Int) × (String → List String)),
      (∀ x, (L.foldl (buildEntityStep dg entities) st).1 x =
        st.1 x + ((L.count x * (adjDeps dg x).countP (fun d => decide (d ∈ entities)) : Nat) : Int)) ∧
      (∀ d, (L.foldl (buildEntityStep dg entities) st).2 d =
        if d ∈ entities then
          st.2 d ++ L.flatMap (fun y => List.replicate ((adjDeps dg y).count d) y)
        else st.2 d) := by
  intro L
  induction L with
  | nil =>
    intro st
    constructor
    · intro x; simp
    · intro d
      by_cases hd : d ∈ entities <;> simp [hd]
  | cons y L ih =>
    intro st
    simp only [List.foldl_cons]
    cases hy : lookupNode dg y with
    | none =>
      have hstep : buildEntityStep dg entities st y = st := by
        simp [buildEntityStep, hy]
      have hadjy : adjDeps dg y = [] := by simp [adjDeps, hy]
      rw [hstep]
      obtain ⟨ih1, ih2⟩ := ih st
      constructor
      · intro x
        rw [ih1 x, List.count_cons]
        by_cases hxy : (y == x) = true
        · have hxy2 : x = y := (beq_iff_eq.mp hxy).symm
          rw [hxy2, hadjy]
          simp
        · rw [Bool.not_eq_true] at hxy
          rw [hxy]
          simp
      · intro d
        rw [ih2 d]
        by_cases hd : d ∈ entities
        · rw [if_pos hd, if_pos hd, List.flatMap_cons, hadjy]
          simp
        · rw [if_neg hd, if_neg hd]
    | some node =>
      have hstep : buildEntityStep dg entities st y =
          node.dependencies.foldl (buildDepStep entities y) st := by
        simp [buildEntityStep, hy]
      have hadjy : adjDeps dg y = node.dependencies := by simp [adjDeps, hy]
      rw [hstep]
      obtain ⟨in1, in2⟩ := buildInner_spec entities y node.dependencies st
      obtain ⟨ih1, ih2⟩ := ih (node.dependencies.foldl (buildDepStep entities y) st)
      constructor
      · intro x
        rw [ih1 x, in1 x, List.count_cons]
        by_cases hxy : x = y
        · rw [if_pos hxy]
          have hb : (y == x) = true := beq_iff_eq.mpr hxy.symm
          rw [hb, hxy, hadjy]
          simp only [if_true]
          ring_nf
          push_cast
          ring
        · rw [if_neg hxy]
          have hb : (y == x) = false := beq_eq_false_iff_ne.mpr fun h => hxy h.symm
          rw [hb]
          simp
      · intro d
        rw [ih2 d, in2 d]
        by_cases hd : d ∈ entities
        · rw [if_pos hd, if_pos hd, if_pos hd, List.flatMap_cons, hadjy]
          simp [List.append_assoc]
        · rw [if_neg hd, if_neg hd, if_neg hd]

/-- The initial in-degree of an entity of the input list is its in-set
dependency count; ids outside the input keep in-degree `0`. -/
theorem buildDegAdj_deg (dg : DependencyGraph) (entities : List String)
    (hnd : entities.Nodup) (x : String) :
    (buildDegAdj dg entities).1 x =
      if x ∈ entities then
        (((adjDeps dg x).countP (fun d => decide (d ∈ entities)) : Nat) : Int)
      else 0 := by
  have h := (buildOuter_spec dg entities entities (fun _ => 0, fun _ => [])).1 x
  rw [buildDegAdj, h]
  by_cases hx : x ∈ entities
  · rw [if_pos hx, List.count_eq_one_of_mem hnd hx]
    simp
  · rw [if_neg hx, List.count_eq_zero.mpr hx]
    simp

/-- The adjacency built for the Kahn loop. -/
theorem buildDegAdj_adj (dg : DependencyGraph) (entities : List String) (d : String) :
    (buildDegAdj dg entities).2 d =
      if d ∈ entities then
        entities.flatMap (fun y => List.replicate ((adjDeps dg y).count d) y)
      else [] := by
  have h := (buildOuter_spec dg entities entities (fun _ => 0, fun _ => [])).2 d
  rw [buildDegAdj, h]
  by_cases hd : d ∈ entities
  · rw [if_pos hd, if_pos hd]
    simp
  · rw [if_neg hd, if_neg hd]

/-- Every entry of the built adjacency lies in the input list. -/
theorem buildDegAdj_adj_mem (dg : DependencyGraph) (entities : List String)
    (d x : String) (hx : x ∈ (buildDegAdj dg entities).2 d) : x ∈ entities := by
  rw [buildDegAdj_adj] at hx
  by_cases hd : d ∈ entities
  · rw [if_pos hd] at hx
    obtain ⟨y, hy, hxy⟩ := List.mem_flatMap.mp hx
    rw [List.eq_of_mem_replicate hxy]
    exact hy
  · rw [if_neg hd] at hx
    simp at hx

/-- Multiplicity of an input entity in the built adjacency at `d`. -/
theorem buildDegAdj_adj_count (dg : DependencyGraph) (entities : List String)
    (hnd : entities.Nodup) (d x : String) (hx : x ∈ entities) (hd : d ∈ entities) :
    ((buildDegAdj dg entities).2 d).count x = (adjDeps dg x).count d := by
  rw [buildDegAdj_adj, if_pos hd]
  clear hd
  induction entities with
  | nil => simp at hx
  | cons y L ih =>
    rw [List.flatMap_cons, List.count_append]
    have hnd2 : L.Nodup := (List.nodup_cons.mp hnd).2
    have hny : y ∉ L := (List.nodup_cons.mp hnd).1
    by_cases hxy : x = y
    · have hxnL : x ∉ L := hxy ▸ hny
      have hcL : (L.flatMap (fun y => List.replicate ((adjDeps dg y).count d) y)).count x = 0 := by
        rw [List.count_eq_zero]
        intro hmem
        obtain ⟨z, hz, hxz⟩ := List.mem_flatMap.mp hmem
        exact hxnL ((List.eq_of_mem_replicate hxz) ▸ hz)
      rw [hcL, List.count_replicate]
      have hb : (y == x) = true := beq_iff_eq.mpr hxy.symm
      rw [hb, hxy]
      simp
    · have hxL : x ∈ L := by
        rcases List.mem_cons.mp hx with h | h
        · exact absurd h hxy
        · exact h
      rw [ih hnd2 hxL, List.count_replicate]
      have hb : (y == x) = false := beq_eq_false_iff_ne.mpr fun h => hxy h.symm
      rw [hb]
      simp

/-- Effect of the inner decrement loop of the Kahn phase: every dependent in
the scanned list has its in-degree reduced by its multiplicity, and exactly
the ids whose count of remaining dependencies is consumed to zero are
enqueued, each once.  The preconditions hold at every reachable loop state:
in-degrees are non-negative and bound the multiplicities. -/
theorem processDependent_fold (l : List String) :
    ∀ (f : String → Int) (q : List String),
      (∀ x, 0 ≤ f x) → (∀ x, ((l.count x : Nat) : Int) ≤ f x) →
      (∀ x, (l.foldl processDependent (f, q)).1 x = f x - ((l.count x : Nat) : Int)) ∧
      ∃ news : List String, (l.foldl processDependent (f, q)).2 = q ++ news ∧
        news.Nodup ∧
        ∀ x, x ∈ news ↔ (1 ≤ f x ∧ ((l.count x : Nat) : Int) = f x) := by
  induction l with
  | nil =>
    intro f q h0 hc
    refine ⟨fun x => by simp, [], by simp, List.nodup_nil, ?_⟩
    intro x
    simp only [List.not_mem_nil, List.count_nil, Nat.cast_zero, false_iff, not_and]
    intro h1 h2
    omega
  | cons a l ih =>
    intro f q h0 hc
    have hca : 1 ≤ f a := by
      have := hc a
      rw [List.count_cons, beq_self_eq_true] at this
      simp at this
      omega
    simp only [List.foldl_cons, processDependent]
    by_cases hz : f a - 1 = 0
    · rw [if_pos hz]
      obtain ⟨ih1, news, hn2, hnd, hiff⟩ := ih (updF f a (f a - 1)) (q ++ [a])
        (fun x => by
          by_cases hxa : x = a
          · simp only [updF, hxa, if_pos rfl]
            omega
          · simp only [updF, if_neg hxa]
            exact h0 x)
        (fun x => by
          by_cases hxa : x = a
          · have := hc a
            rw [List.count_cons, beq_self_eq_true] at this
            simp only [if_true] at this
            simp only [updF, hxa, if_pos rfl]
            push_cast at this ⊢
            omega
          · have := hc x
            rw [List.count_cons] at this
            have hb : (a == x) = false := beq_eq_false_iff_ne.mpr fun h => hxa h.symm
            rw [hb] at this
            simp only [if_false, Bool.false_eq_true] at this
            simp only [updF, hxa, if_neg hxa]
            simpa using this)
      constructor
      · intro x
        rw [ih1 x, List.count_cons]
        by_cases hxa : x = a
        · have hb : (a == x) = true := beq_iff_eq.mpr hxa.symm
          rw [hb]
          simp only [updF, hxa, if_pos rfl, if_true]
          push_cast
          omega
        · have hb : (a == x) = false := beq_eq_false_iff_ne.mpr fun h => hxa h.symm
          rw [hb]
          simp only [updF, if_neg hxa, Bool.false_eq_true, if_false]
          push_cast
          omega
      · refine ⟨a :: news, by rw [hn2, List.append_assoc]; rfl, ?_, ?_⟩
        · refine List.nodup_cons.mpr ⟨?_, hnd⟩
          intro hmem
          have := (hiff a).mp hmem
          simp [updF] at this
          omega
        · intro x
          rw [List.mem_cons, hiff x, List.count_cons]
          by_cases hxa : x = a
          · have hb : (a == x) = true := beq_iff_eq.mpr hxa.symm
            rw [hb]
            simp only [hxa, true_or, true_iff, if_true]
            have hcnt : ((l.count a : Nat) : Int) ≤ f a - 1 := by
              have := hc a
              rw [List.count_cons, beq_self_eq_true] at this
              simp only [if_true] at this
              push_cast at this ⊢
              omega
            have hfa : f a = 1 := by omega
            constructor
            · omega
            · push_cast
              omega
          · have hb : (a == x) = false := beq_eq_false_iff_ne.mpr fun h => hxa h.symm
            rw [hb]
            simp only [hxa, false_or, updF, if_neg hxa, Bool.false_eq_true, if_false]
            constructor
            · rintro ⟨h1, h2⟩
              exact ⟨h1, by push_cast at h2 ⊢; omega⟩
            · rintro ⟨h1, h2⟩
              exact ⟨h1, by push_cast at h2 ⊢; omega⟩
    · rw [if_neg hz]
      obtain ⟨ih1, news, hn2, hnd, hiff⟩ := ih (updF f a (f a - 1)) q
        (fun x => by
          by_cases hxa : x = a
          · simp only [updF, hxa, if_pos rfl]
            omega
          · simp only [updF, if_neg hxa]
            exact h0 x)
        (fun x => by
          by_cases hxa : x = a
          · have := hc a
            rw [List.count_cons, beq_self_eq_true] at this
            simp only [if_true] at this
            simp only [updF, hxa, if_pos rfl]
            push_cast at this ⊢
            omega
          · have := hc x
            rw [List.count_cons] at this
            have hb : (a == x) = false := beq_eq_false_iff_ne.mpr fun h => hxa h.symm
            rw [hb] at this
            simp only [if_false, Bool.false_eq_true] at this
            simp only [updF, hxa, if_neg hxa]
            simpa using this)
      constructor
      · intro x
        rw [ih1 x, List.count_cons]
        by_cases hxa : x = a
        · have hb : (a == x) = true := beq_iff_eq.mpr hxa.symm
          rw [hb]
          simp only [updF, hxa, if_pos rfl, if_true]
          push_cast
          omega
        · have hb : (a == x) = false := beq_eq_false_iff_ne.mpr fun h => hxa h.symm
          rw [hb]
          simp only [updF, if_neg hxa, Bool.false_eq_true, if_false]
          push_cast
          omega
      · refine ⟨news, hn2, hnd, ?_⟩
        intro x
        rw [hiff x, List.count_cons]
        by_cases hxa : x = a
        · have hb : (a == x) = true := beq_iff_eq.mpr hxa.symm
          rw [hb]
          simp only [updF, hxa, if_pos rfl, if_true]
          constructor
          · rintro ⟨h1, h2⟩
            refine ⟨by omega, ?_⟩
            push_cast at h2 ⊢
            omega
          · rintro ⟨h1, h2⟩
            have hcnt : ((l.count a : Nat) : Int) ≤ f a - 1 := by
              have := hc a
              rw [List.count_cons, beq_self_eq_true] at this
              simp only [if_true] at this
              push_cast at this ⊢
              omega
            push_cast at h2 ⊢
            omega
        · have hb : (a == x) = false := beq_eq_false_iff_ne.mpr fun h => hxa h.symm
          rw [hb]
          simp only [updF, if_neg hxa, Bool.false_eq_true, if_false]
          constructor
          · rintro ⟨h1, h2⟩
            exact ⟨h1, by push_cast at h2 ⊢; omega⟩
          · rintro ⟨h1, h2⟩
            exact ⟨h1, by push_cast at h2 ⊢; omega⟩

/-- Main invariant lemma for the Kahn loop: from any state satisfying
`KahnInv` with enough fuel left (the loop runs at most once per entity, so
`entities.length + 1 - result.length` iterations always suffice), the loop
returns a duplicate-free, topologically sorted list of entities, and every
entity left out retains an unpopped in-set dependency. -/
theorem kahnLoop_invariant (dg : DependencyGraph) (entities : List String)
    (hnd : entities.Nodup) :
    ∀ (fuel : Nat) (inDeg : String → Int) (queue result : List String),
      KahnInv dg entities inDeg queue result →
      entities.length + 1 ≤ fuel + result.length →
      ((kahnLoop (buildDegAdj dg entities).2 fuel inDeg queue result).Nodup ∧
       (∀ x ∈ kahnLoop (buildDegAdj dg entities).2 fuel inDeg queue result, x ∈ entities)) ∧
      DepsPrecede dg entities (kahnLoop (buildDegAdj dg entities).2 fuel inDeg queue result) ∧
      (∀ x ∈ entities, x ∉ kahnLoop (buildDegAdj dg entities).2 fuel inDeg queue result →
        1 ≤ remDeg dg entities (kahnLoop (buildDegAdj dg entities).2 fuel inDeg queue result) x) := by
  intro fuel
  induction fuel with
  | zero =>
    intro inDeg queue result hinv hfuel
    obtain ⟨hnodup, hres, _, _, _, _, _, _⟩ := hinv
    have hlen : result.length ≤ entities.length :=
      nodup_subset_length (List.nodup_append.mp hnodup).1 hres
    omega
  | succ n ih =>
    intro inDeg queue result hinv hfuel
    obtain ⟨hnodup, hres, hq, hdeg, hdeg0, hpopped, htopo, hrem⟩ := hinv
    cases queue with
    | nil =>
      rw [show kahnLoop (buildDegAdj dg entities).2 (n + 1) inDeg [] result = result from rfl]
      refine ⟨⟨?_, hres⟩, htopo, ?_⟩
      · simpa using hnodup
      · intro x hx hxout
        exact hrem x hx hxout (List.not_mem_nil x)
    | cons current rest =>
      have hcur_ent : current ∈ entities := hq current (List.mem_cons_self _ _)
      rw [List.nodup_append] at hnodup
      obtain ⟨hres_nd, hcr_nd, hdisj⟩ := hnodup
      have hcur_nres : current ∉ result := fun h => hdisj h (List.mem_cons_self _ _)
      obtain ⟨hcur_nrest, hrest_nd⟩ := List.nodup_cons.mp hcr_nd
      have hl_ent : ∀ x ∈ (buildDegAdj dg entities).2 current, x ∈ entities :=
        fun x hx => buildDegAdj_adj_mem dg entities current x hx
      have hl_count : ∀ x, x ∈ entities →
          ((buildDegAdj dg entities).2 current).count x = (adjDeps dg x).count current :=
        fun x hx => buildDegAdj_adj_count dg entities hnd current x hx hcur_ent
      have hl_count0 : ∀ x, x ∉ entities →
          ((buildDegAdj dg entities).2 current).count x = 0 :=
        fun x hx => List.count_eq_zero.mpr (fun hmem => hx (hl_ent x hmem))
      have hf0 : ∀ x, 0 ≤ inDeg x := by
        intro x
        by_cases hx : x ∈ entities
        · rw [hdeg x hx]; omega
        · rw [hdeg0 x hx]
      have hfc : ∀ x, ((((buildDegAdj dg entities).2 current).count x : Nat) : Int) ≤ inDeg x := by
        intro x
        by_cases hx : x ∈ entities
        · rw [hl_count x hx, hdeg x hx]
          have h1 := count_le_remDeg dg entities result current hcur_ent hcur_nres x
          omega
        · rw [hl_count0 x hx, hdeg0 x hx]
          simp
      obtain ⟨hp1, news, hp2, hnews_nd, hniff⟩ :=
        processDependent_fold ((buildDegAdj dg entities).2 current) inDeg rest hf0 hfc
      have hnews_ent : ∀ x ∈ news, x ∈ entities := by
        intro x hx
        by_contra hxe
        have h1 := ((hniff x).mp hx).1
        rw [hdeg0 x hxe] at h1
        omega
      have hzero_of_queue : ∀ y, y ∈ result ∨ y = current ∨ y ∈ rest → inDeg y = 0 := by
        intro y hy
        have hy_ent : y ∈ entities := by
          rcases hy with h | h | h
          · exact hres y h
          · exact h ▸ hcur_ent
          · exact hq y (List.mem_cons_of_mem _ h)
        have hedges : ∀ s, DepEdge dg entities s y → s ∈ result := by
          apply hpopped
          rcases hy with h | h | h
          · exact List.mem_append.mpr (Or.inl h)
          · exact List.mem_append.mpr (Or.inr (h ▸ List.mem_cons_self _ _))
          · exact List.mem_append.mpr (Or.inr (List.mem_cons_of_mem _ h))
        rw [hdeg y hy_ent, remDeg_zero_of_popped dg entities result y hy_ent hedges]
        simp
      have hnews_fresh : ∀ x ∈ news, x ∉ result ∧ x ≠ current ∧ x ∉ rest := by
        intro x hx
        have h1 := ((hniff x).mp hx).1
        refine ⟨fun hc => ?_, fun hc => ?_, fun hc => ?_⟩
        · rw [hzero_of_queue x (Or.inl hc)] at h1; omega
        · rw [hzero_of_queue x (Or.inr (Or.inl hc))] at h1; omega
        · rw [hzero_of_queue x (Or.inr (Or.inr hc))] at h1; omega
      have hinv2q : KahnInv dg entities
          (((buildDegAdj dg entities).2 current).foldl processDependent (inDeg, rest)).1
          (rest ++ news) (result ++ [current]) := by
        refine ⟨?_, ?_, ?_, ?_, ?_, ?_, ?_, ?_⟩
        · refine List.nodup_append.mpr ⟨?_, ?_, ?_⟩
          · refine List.nodup_append.mpr ⟨hres_nd, List.nodup_singleton _, ?_⟩
            intro a ha hb
            exact hcur_nres ((List.mem_singleton.mp hb) ▸ ha)
          · refine List.nodup_append.mpr ⟨hrest_nd, hnews_nd, ?_⟩
            intro a ha hb
            exact (hnews_fresh a hb).2.2 ha
          · intro a ha hb
            rcases List.mem_append.mp ha with ha2 | ha2
            · rcases List.mem_append.mp hb with hb2 | hb2
              · exact hdisj ha2 (List.mem_cons_of_mem _ hb2)
              · exact (hnews_fresh a hb2).1 ha2
            · have haeq : a = current := List.mem_singleton.mp ha2
              rcases List.mem_append.mp hb with hb2 | hb2
              · exact hcur_nrest (haeq ▸ hb2)
              · exact (hnews_fresh a hb2).2.1 haeq
        · intro x hx
          rcases List.mem_append.mp hx with h | h
          · exact hres x h
          · exact (List.mem_singleton.mp h) ▸ hcur_ent
        · intro x hx
          rcases List.mem_append.mp hx with h | h
          · exact hq x (List.mem_cons_of_mem _ h)
          · exact hnews_ent x h
        · intro x hx
          rw [hp1 x, hdeg x hx, hl_count x hx]
          have hpop := remDeg_pop dg entities result current hcur_ent hcur_nres x
          omega
        · intro x hx
          rw [hp1 x, hdeg0 x hx, hl_count0 x hx]
          simp
        · intro x hx s hs
          rcases List.mem_append.mp hx with hx2 | hx2
          · rcases List.mem_append.mp hx2 with hx3 | hx3
            · exact List.mem_append.mpr (Or.inl
                (hpopped x (List.mem_append.mpr (Or.inl hx3)) s hs))
            · have hxc : x = current := List.mem_singleton.mp hx3
              exact List.mem_append.mpr (Or.inl (hpopped x
                (List.mem_append.mpr (Or.inr (hxc ▸ List.mem_cons_self _ _))) s hs))
          · rcases List.mem_append.mp hx2 with hx3 | hx3
            · exact List.mem_append.mpr (Or.inl (hpopped x
                (List.mem_append.mpr (Or.inr (List.mem_cons_of_mem _ hx3))) s hs))
            · have hx_ent : x ∈ entities := hnews_ent x hx3
              have h2 := (hniff x).mp hx3
              have hr0 : remDeg dg entities (result ++ [current]) x = 0 := by
                have e1 : inDeg x = (remDeg dg entities result x : Int) := hdeg x hx_ent
                have e2 := remDeg_pop dg entities result current hcur_ent hcur_nres x
                have e3 := hl_count x hx_ent
                have e4 := h2.2
                rw [e3] at e4
                push_cast at e1 e2 e4 ⊢
                omega
              exact remDeg_zero_popped dg entities (result ++ [current]) x hr0 s hs
        · intro i hi s hs
          have hilen : i < result.length + 1 := by
            simpa [List.length_append] using hi
          by_cases hil : i < result.length
          · have hget : (result ++ [current]).get ⟨i, hi⟩ = result.get ⟨i, hil⟩ := by
              rw [List.get_eq_getElem, List.get_eq_getElem]
              exact List.getElem_append_left hil
            rw [hget] at hs
            have htk := htopo i hil s hs
            rw [List.take_append_eq_append_take]
            have hz : i - result.length = 0 := by omega
            rw [hz]
            simp only [List.take_zero, List.append_nil]
            exact htk
          · have hieq : i = result.length := by omega
            have hget : (result ++ [current]).get ⟨i, hi⟩ = current := by
              rw [List.get_eq_getElem]
              exact List.getElem_concat_length result current i hieq _
            rw [hget] at hs
            have hsr : s ∈ result :=
              hpopped current (List.mem_append.mpr (Or.inr (List.mem_cons_self _ _))) s hs
            rw [hieq, List.take_left]
            exact hsr
        · intro x hx hxr hxq
          have hxres : x ∉ result := fun h => hxr (List.mem_append.mpr (Or.inl h))
          have hxcur : x ≠ current := fun h =>
            hxr (List.mem_append.mpr (Or.inr (List.mem_singleton.mpr h)))
          have hxrest : x ∉ rest := fun h => hxq (List.mem_append.mpr (Or.inl h))
          have hxnews : x ∉ news := fun h => hxq (List.mem_append.mpr (Or.inr h))
          have hold := hrem x hx hxres (fun h => by
            rcases List.mem_cons.mp h with h2 | h2
            · exact hxcur h2
            · exact hxrest h2)
          have h1le : (1 : Int) ≤ inDeg x := by
            rw [hdeg x hx]
            omega
          have hcneq : ¬ ((((buildDegAdj dg entities).2 current).count x : Nat) : Int)
              = inDeg x := fun hcc => hxnews ((hniff x).mpr ⟨h1le, hcc⟩)
          have e1 : inDeg x = (remDeg dg entities result x : Int) := hdeg x hx
          have e2 := remDeg_pop dg entities result current hcur_ent hcur_nres x
          have e3 := hl_count x hx
          have e4 := hfc x
          rw [e3] at hcneq e4
          push_cast at e1 e2 e4 hcneq ⊢
          omega
      have hinv2 : KahnInv dg entities
          (((buildDegAdj dg entities).2 current).foldl processDependent (inDeg, rest)).1
          (((buildDegAdj dg entities).2 current).foldl processDependent (inDeg, rest)).2
          (result ++ [current]) := by
        rw [hp2]
        exact hinv2q
      have hcall := ih
        (((buildDegAdj dg entities).2 current).foldl processDependent (inDeg, rest)).1
        (((buildDegAdj dg entities).2 current).foldl processDependent (inDeg, rest)).2
        (result ++ [current]) hinv2
        (by simp only [List.length_append, List.length_singleton]; omega)
      rw [show kahnLoop (buildDegAdj dg entities).2 (n + 1) inDeg (current :: rest) result =
          kahnLoop (buildDegAdj dg entities).2 n
            (((buildDegAdj dg entities).2 current).foldl processDependent (inDeg, rest)).1
            (((buildDegAdj dg entities).2 current).foldl processDependent (inDeg, rest)).2
            (result ++ [current]) from rfl]
      exact hcall

/-- If every member of a nonempty set of entities has an in-set dependency
inside the set, the induced subgraph has a cycle (pigeonhole along a chain
of predecessors). -/
theorem exists_cycle_of_predecessors (dg : DependencyGraph) (entities : List String)
    (P : String → Prop)
    (hsub : ∀ x, P x → x ∈ entities)
    (hpred : ∀ x, P x → ∃ s, DepEdge dg entities s x ∧ P s)
    (hne : ∃ x, P x) : HasCycle dg entities := by
  classical
  obtain ⟨x0, hx0⟩ := hne
  have hchoice : ∀ x : {y // P y}, ∃ s : {y // P y}, DepEdge dg entities s.val x.val := by
    rintro ⟨x, hx⟩
    obtain ⟨s, hs, hps⟩ := hpred x hx
    exact ⟨⟨s, hps⟩, hs⟩
  choose f hf using hchoice
  have hstep : ∀ n : Nat,
      DepEdge dg entities (f^[n + 1] ⟨x0, hx0⟩).val (f^[n] ⟨x0, hx0⟩).val := by
    intro n
    rw [Function.iterate_succ_apply']
    exact hf (f^[n] ⟨x0, hx0⟩)
  have hmaps : ∀ n ∈ Finset.range (entities.length + 1),
      (f^[n] ⟨x0, hx0⟩).val ∈ entities.toFinset :=
    fun n _ => List.mem_toFinset.mpr (hsub _ (f^[n] ⟨x0, hx0⟩).property)
  have hcard : entities.toFinset.card < (Finset.range (entities.length + 1)).card := by
    rw [Finset.card_range]
    exact Nat.lt_succ_of_le (List.toFinset_card_le entities)
  obtain ⟨i, _, j, _, hij, hgij⟩ :=
    Finset.exists_ne_map_eq_of_card_lt_of_maps_to hcard hmaps
  have hpath : ∀ a k : Nat,
      Relation.TransGen (DepEdge dg entities)
        (f^[a + k + 1] ⟨x0, hx0⟩).val (f^[a] ⟨x0, hx0⟩).val := by
    intro a k
    induction k with
    | zero => exact Relation.TransGen.single (hstep a)
    | succ k ihk =>
      have h1 : DepEdge dg entities
          (f^[a + (k + 1) + 1] ⟨x0, hx0⟩).val (f^[a + k + 1] ⟨x0, hx0⟩).val := by
        have h2 := hstep (a + k + 1)
        have h3 : a + (k + 1) + 1 = a + k + 1 + 1 := by ring
        rw [h3]
        exact h2
      exact Relation.TransGen.head h1 ihk
  rcases Nat.lt_or_ge i j with hlt | hge
  · obtain ⟨k, rfl⟩ : ∃ k, j = i + k + 1 := ⟨j - i - 1, by omega⟩
    have hp := hpath i k
    rw [show (f^[i + k + 1] ⟨x0, hx0⟩).val = (f^[i] ⟨x0, hx0⟩).val from hgij.symm] at hp
    exact ⟨(f^[i] ⟨x0, hx0⟩).val, hp⟩
  · have hlt2 : j < i := by omega
    obtain ⟨k, rfl⟩ : ∃ k, i = j + k + 1 := ⟨i - j - 1, by omega⟩
    have hp := hpath j k
    rw [show (f^[j + k + 1] ⟨x0, hx0⟩).val = (f^[j] ⟨x0, hx0⟩).val from hgij] at hp
    exact ⟨(f^[j] ⟨x0, hx0⟩).val, hp⟩

/-- A list that contains every entity and in which each element's in-set
dependencies strictly precede it rules out any induced cycle. -/
theorem topo_list_no_cycle (dg : DependencyGraph) (entities : List String)
    (out : List String)
    (htopo : DepsPrecede dg entities out)
    (hall : ∀ x ∈ entities, x ∈ out) :
    ¬ HasCycle dg entities := by
  rintro ⟨x, hx⟩
  have hkey : ∀ s t, DepEdge dg entities s t → out.indexOf s < out.indexOf t := by
    intro s t hedge
    have ht_out : t ∈ out := hall t hedge.1
    have hi : out.indexOf t < out.length := List.indexOf_lt_length.mpr ht_out
    have hget : out.get ⟨out.indexOf t, hi⟩ = t := List.indexOf_get hi
    have hs_take := htopo (out.indexOf t) hi s (by rw [hget]; exact hedge)
    exact indexOf_lt_of_mem_take out (out.indexOf t) hs_take
  have htg : ∀ a b, Relation.TransGen (DepEdge dg entities) a b →
      out.indexOf a < out.indexOf b := by
    intro a b h
    induction h with
    | single h1 => exact hkey _ _ h1
    | tail _ h2 ih => exact lt_trans ih (hkey _ _ h2)
  exact absurd (htg x x hx) (lt_irrefl _)

/-- With an everywhere-empty adjacency the Kahn loop just moves the queue
into the result, in order. -/
theorem kahnLoop_no_edges (adj : String → List String) (hadj : ∀ d, adj d = []) :
    ∀ (fuel : Nat) (f : String → Int) (q r : List String), q.length ≤ fuel →
      kahnLoop adj fuel f q r = r ++ q := by
  intro fuel
  induction fuel with
  | zero =>
    intro f q r hq
    have hqe : q = [] := List.length_eq_zero.mp (Nat.le_zero.mp hq)
    rw [hqe]
    simp [kahnLoop]
  | succ n ih =>
    intro f q r hq
    cases q with
    | nil => simp [kahnLoop]
    | cons c rest =>
      rw [show kahnLoop adj (n + 1) f (c :: rest) r =
          kahnLoop adj n ((adj c).foldl processDependent (f, rest)).1
            ((adj c).foldl processDependent (f, rest)).2 (r ++ [c]) from rfl]
      rw [hadj c]
      simp only [List.foldl_nil]
      rw [ih f rest (r ++ [c]) (by simp at hq; omega)]
      simp

/-- Mapping every element to the empty list flattens to the empty list. -/
theorem flatMap_eq_nil_of_forall {α β : Type} (L : List α) (f : α → List β)
    (h : ∀ y ∈ L, f y = []) : L.flatMap f = [] := by
  induction L with
  | nil => rfl
  | cons a L ih =>
    rw [List.flatMap_cons, h a (List.mem_cons_self _ _),
      ih (fun y hy => h y (List.mem_cons_of_mem _ hy))]
    rfl

/-- C1 (amended to duplicate-free input lists): for every index and every
duplicate-free list of ids, when the dependency subgraph induced on the ids
is acyclic `get_change_order` returns a permutation of the input in which
every id's in-set dependencies precede it; when the induced subgraph has a
cycle it returns the input unchanged; and when there are no induced edges
at all — every id tied — it returns exactly the input (FIFO) order. -/
theorem get_change_order_spec (dg : DependencyGraph) (entities : List String)
    (hnd : entities.Nodup) :
    (¬ HasCycle dg entities →
      (get_change_order dg entities).Perm entities ∧
      DepsPrecede dg entities (get_change_order dg entities)) ∧
    (HasCycle dg entities → get_change_order dg entities = entities) ∧
    ((∀ s t, ¬ DepEdge dg entities s t) → get_change_order dg entities = entities) := by
  set out := kahnLoop (buildDegAdj dg entities).2 (entities.length + 1)
    (buildDegAdj dg entities).1
    (entities.filter (fun e => (buildDegAdj dg entities).1 e == 0)) [] with hout_def
  have hgco : get_change_order dg entities =
      if out.length = entities.length then out else entities := rfl
  have hinv0 : KahnInv dg entities (buildDegAdj dg entities).1
      (entities.filter (fun e => (buildDegAdj dg entities).1 e == 0)) [] := by
    refine ⟨?_, ?_, ?_, ?_, ?_, ?_, ?_, ?_⟩
    · simpa using hnd.filter _
    · intro x hx
      simp at hx
    · intro x hx
      exact (List.mem_filter.mp hx).1
    · intro x hx
      rw [buildDegAdj_deg dg entities hnd x, if_pos hx, remDeg_nil]
    · intro x hx
      rw [buildDegAdj_deg dg entities hnd x, if_neg hx]
    · intro x hx s hs
      simp only [List.nil_append] at hx
      have hx_ent := (List.mem_filter.mp hx).1
      have h2 := (List.mem_filter.mp hx).2
      rw [beq_iff_eq, buildDegAdj_deg dg entities hnd x, if_pos hx_ent] at h2
      have h3 : remDeg dg entities [] x = 0 := by
        rw [remDeg_nil]
        exact_mod_cast h2
      exact remDeg_zero_popped dg entities [] x h3 s hs
    · intro i hi s hs
      simp at hi
    · intro x hx hxr hxq
      have h2 : ¬ ((buildDegAdj dg entities).1 x == 0) = true := fun hc =>
        hxq (List.mem_filter.mpr ⟨hx, hc⟩)
      rw [beq_iff_eq, buildDegAdj_deg dg entities hnd x, if_pos hx] at h2
      rw [remDeg_nil]
      rcases Nat.eq_zero_or_pos ((adjDeps dg x).countP (fun d => decide (d ∈ entities)))
        with h3 | h3
      · exact absurd (by rw [h3]; rfl) h2
      · omega
  obtain ⟨⟨hout_nd, hout_ent⟩, hout_topo, hout_rem⟩ :=
    kahnLoop_invariant dg entities hnd (entities.length + 1)
      (buildDegAdj dg entities).1
      (entities.filter (fun e => (buildDegAdj dg entities).1 e == 0)) [] hinv0
      (by simp)
  rw [← hout_def] at hout_nd hout_ent hout_topo hout_rem
  refine ⟨?_, ?_, ?_⟩
  · intro hnc
    have hcomplete : ∀ x ∈ entities, x ∈ out := by
      by_contra hmiss
      push_neg at hmiss
      obtain ⟨y, hy_ent, hy_nout⟩ := hmiss
      apply hnc
      refine exists_cycle_of_predecessors dg entities
        (fun z => z ∈ entities ∧ z ∉ out) (fun z hz => hz.1) ?_ ⟨y, hy_ent, hy_nout⟩
      intro z hz
      obtain ⟨s, hs_edge, hs_nout⟩ := remDeg_pos_edge dg entities out z hz.1
        (hout_rem z hz.1 hz.2)
      exact ⟨s, hs_edge, hs_edge.2.1, hs_nout⟩
    have hperm : out.Perm entities :=
      (List.perm_ext_iff_of_nodup hout_nd hnd).mpr
        (fun a => ⟨fun h => hout_ent a h, fun h => hcomplete a h⟩)
    have hlen : out.length = entities.length := hperm.length_eq
    rw [hgco, if_pos hlen]
    exact ⟨hperm, hout_topo⟩
  · intro hcyc
    have hmiss : ∃ y ∈ entities, y ∉ out := by
      by_contra hall
      push_neg at hall
      exact absurd hcyc (topo_list_no_cycle dg entities out hout_topo hall)
    obtain ⟨y, hy_ent, hy_nout⟩ := hmiss
    have hlt : out.length < entities.length :=
      nodup_subset_missing_length_lt hout_nd hout_ent y hy_ent hy_nout
    rw [hgco, if_neg (by omega)]
  · intro hnoedge
    have hcnt0 : ∀ x ∈ entities,
        (adjDeps dg x).countP (fun d => decide (d ∈ entities)) = 0 := by
      intro x hx
      rw [List.countP_eq_zero]
      intro d hd
      simp only [decide_eq_true_eq]
      intro hde
      exact hnoedge d x ⟨hx, hde, hd⟩
    have hfilter : entities.filter (fun e => (buildDegAdj dg entities).1 e == 0)
        = entities := by
      refine List.filter_eq_self.mpr ?_
      intro e he
      rw [buildDegAdj_deg dg entities hnd e, if_pos he, hcnt0 e he]
      rfl
    have hadj0 : ∀ d, (buildDegAdj dg entities).2 d = [] := by
      intro d
      rw [buildDegAdj_adj]
      by_cases hd : d ∈ entities
      · rw [if_pos hd]
        refine flatMap_eq_nil_of_forall _ _ ?_
        intro y hy
        have hc : (adjDeps dg y).count d = 0 := by
          rw [List.count_eq_zero]
          intro hmem
          exact hnoedge d y ⟨hy, hd, hmem⟩
        rw [hc]
        rfl
      · rw [if_neg hd]
    have hloop := kahnLoop_no_edges (buildDegAdj dg entities).2 hadj0
      (entities.length + 1) (buildDegAdj dg entities).1 entities [] (by omega)
    rw [hgco, hout_def, hfilter, hloop]
    simp

/-- Witness for C1 (amended), at the spec's planning scenario index. -/
theorem get_change_order_spec_witness :
    (¬ HasCycle dgScenario ["order", "customer"] →
      (get_change_order dgScenario ["order", "customer"]).Perm ["order", "customer"] ∧
      DepsPrecede dgScenario ["order", "customer"]
        (get_change_order dgScenario ["order", "customer"])) ∧
    (HasCycle dgScenario ["order", "customer"] →
      get_change_order dgScenario ["order", "customer"] = ["order", "customer"]) ∧
    ((∀ s t, ¬ DepEdge dgScenario ["order", "customer"] s t) →
      get_change_order dgScenario ["order", "customer"] = ["order", "customer"]) :=
  get_change_order_spec dgScenario ["order", "customer"] (by decide)

/-- C1 counterexample: the claim fails on an input list with a duplicate.
The index has only the acyclic dependency `b → a` (`b` depends on `a`),
yet on the input `["b", "b", "a"]` the sort under-counts `b` (its in-degree
is charged once per duplicate), the cycle check misfires, and the original
list is returned, in which the dependency `a` never precedes `b`. -/
theorem get_change_order_duplicate_input_cex :
    get_change_order dgAcyclicSmall ["b", "b", "a"] = ["b", "b", "a"] ∧
    ¬ HasCycle dgAcyclicSmall ["b", "b", "a"] ∧
    DepEdge dgAcyclicSmall ["b", "b", "a"] "a" "b" ∧
    ¬ DepsPrecede dgAcyclicSmall ["b", "b", "a"]
      (get_change_order dgAcyclicSmall ["b", "b", "a"]) := by
  have hval : get_change_order dgAcyclicSmall ["b", "b", "a"] = ["b", "b", "a"] := by decide
  have hedges : ∀ s t, DepEdge dgAcyclicSmall ["b", "b", "a"] s t → s = "a" ∧ t = "b" := by
    rintro s t ⟨ht, hs, hdep⟩
    have ht2 : t = "b" ∨ t = "a" := by
      rcases List.mem_cons.mp ht with h | h2
      · exact Or.inl h
      rcases List.mem_cons.mp h2 with h | h3
      · exact Or.inl h
      rcases List.mem_cons.mp h3 with h | h4
      · exact Or.inr h
      · exact absurd h4 (List.not_mem_nil t)
    rcases ht2 with rfl | rfl
    · have hadj : adjDeps dgAcyclicSmall "b" = ["a"] := rfl
      rw [hadj] at hdep
      exact ⟨List.mem_singleton.mp hdep, rfl⟩
    · have hadj : adjDeps dgAcyclicSmall "a" = [] := rfl
      rw [hadj] at hdep
      exact absurd hdep (List.not_mem_nil s)
  refine ⟨hval, ?_, by decide, ?_⟩
  · rintro ⟨x, hx⟩
    have hxa : x = "a" := by
      obtain ⟨c, hc, _⟩ := Relation.TransGen.head'_iff.mp hx
      exact (hedges x c hc).1
    have hxb : x = "b" := by
      obtain ⟨c, _, hc⟩ := Relation.TransGen.tail'_iff.mp hx
      exact (hedges c x hc).2
    rw [hxa] at hxb
    exact absurd hxb (by decide)
  · intro h
    have h2 := h 0 (by decide) "a"
    exact absurd (h2 (by decide)) (by decide)
